import Mathlib

/-!
# referNconnect — verification of the dedup/normalization core

Shallow embedding of the employee-directory core of the repository:
field mapping, CSV/JSON parsing with company grouping, identity matching,
field-level merge, and the admin import/dedup drivers
(`src/utils/helpers.js`, `src/parsers/csv.js`, `src/parsers/json.js`,
`src/admin/admin.js`).

JavaScript strings are modelled as Lean `String`, with the handful of
string operations the source uses (trim, toLowerCase, digit filtering,
regex-literal replacement) implemented explicitly over character lists.
-/

namespace RNC

/-- Whitespace recognized by JS `trim` / `\s` (ASCII subset used here). -/
def isWsChar (c : Char) : Bool :=
  c = ' ' || c = '\t' || c = '\n' || c = '\r' || c = '\x0b' || c = '\x0c'

/-- JS `String.prototype.trim` on a character list. -/
def trimChars (l : List Char) : List Char :=
  ((l.dropWhile isWsChar).reverse.dropWhile isWsChar).reverse

/-- JS `String.prototype.trim`. -/
def jsTrim (s : String) : String := String.mk (trimChars s.data)

/-- JS `String.prototype.toLowerCase` (ASCII). -/
def jsLower (s : String) : String := String.mk (s.data.map Char.toLower)

/-- JS `str.replace(/\D/g, '')`: keep only decimal digits. -/
def digitsOnly (s : String) : String := String.mk (s.data.filter Char.isDigit)

/-- Occurrence of `pat` as a contiguous sublist of `l`. -/
def isInfixB (pat : List Char) : List Char → Bool
  | [] => pat.isEmpty
  | c :: rest => pat.isPrefixOf (c :: rest) || isInfixB pat rest

/-- JS `s.includes(pat)`. -/
def containsSub (s pat : String) : Bool := isInfixB pat.data s.data

/-- JS `a || b` on strings (empty string is the only falsy string). -/
def jsOr (a b : String) : String := if a = "" then b else a

/-- `isEmpty` from `src/utils/helpers.js` restricted to string values:
null/undefined never occur in the embedded records, every field is a
string.  Trims, lowercases, then tests the placeholder tokens. -/
def isEmpty (value : String) : Bool :=
  let v := jsLower (jsTrim value)
  v = "" || v = "n/a" || v = "-" ||
    v = "no email" || v = "no phone" ||
    v = "unknown" || v = "no email found" ||
    containsSub v "not revealed" ||
    containsSub v "no phone"

/-- Character class of the punctuation-removal regex in `normalizeString`
(`[.,/#!$%^&*;:{}=\-_
~()]` plus backquote), by character code. -/
def punctCodes : List Nat :=
  [46, 44, 47, 35, 33, 36, 37, 94, 38, 42, 59, 58, 123, 125, 61, 45, 95, 96, 126, 40, 41]

/-- Membership in the punctuation character class. -/
def isPunct (c : Char) : Bool := punctCodes.contains c.toNat

/-- JS `str.replace(/\s+/g, repl)`: each maximal whitespace run becomes
one `repl` character.  `prevWs` records whether the previous character
was part of a run already replaced. -/
def collapseWsWith (repl : Char) : Bool → List Char → List Char
  | _, [] => []
  | prevWs, c :: rest =>
    if isWsChar c then
      if prevWs then collapseWsWith repl true rest
      else repl :: collapseWsWith repl true rest
    else c :: collapseWsWith repl false rest

/-- `normalizeString` from `src/utils/helpers.js`: lowercase, trim,
strip punctuation, collapse whitespace runs to single spaces. -/
def normalizeString (str : String) : String :=
  if str = "" then ""
  else String.mk (collapseWsWith ' ' false
    ((trimChars (str.data.map Char.toLower)).filter (fun c => !isPunct c)))

/-- Remove the leftmost occurrence of any of the literal patterns `pats`
(JS `String.prototype.replace` with a first-match regex of literal
alternatives, none of which is a prefix of another). -/
def removeFirstAny (pats : List (List Char)) : List Char → List Char
  | [] => []
  | c :: rest =>
    match pats.find? (fun p => p.isPrefixOf (c :: rest)) with
    | some p => (c :: rest).drop p.length
    | none => c :: removeFirstAny pats rest

/-- JS `str.replace(/\/$/, '')`: drop one trailing slash. -/
def dropSlashEnd (l : List Char) : List Char :=
  if l.getLast? = some '/' then l.dropLast else l

/-- The literal alternatives of `/https?:\/\/(www\.)?linkedin\.com\/in\//`. -/
def linkedinProtoPats : List (List Char) :=
  ["https://linkedin.com/in/".data, "https://www.linkedin.com/in/".data,
   "http://linkedin.com/in/".data, "http://www.linkedin.com/in/".data]

/-- `normalizeLinkedIn` from `src/utils/helpers.js`. -/
def normalizeLinkedIn (url : String) : String :=
  if isEmpty url then ""
  else
    String.mk (removeFirstAny ["linkedin.com/in/".data]
      (removeFirstAny linkedinProtoPats
        (dropSlashEnd (jsTrim (jsLower url)).data)))

/-- Employee record.  `extraF` stands for any further own properties a
persisted employee object may carry; the JS object spread `{ ...target }`
copies them verbatim. -/
structure Employee where
  id : String
  firstName : String
  lastName : String
  email : String
  phone : String
  jobTitle : String
  linkedin : String
  location : String
  phoneLocked : Bool
  extraF : List (String × String)
deriving Repr, DecidableEq, Inhabited

/-- The body of the `fields.forEach` loop in `mergeEmployeeData`:
how one field of the merge result is computed from the target value
`val1` and the source value `val2`. -/
def mergeFieldVal (isNameF isPhoneF : Bool) (val1 val2 : String) : String :=
  if isEmpty val1 && !isEmpty val2 then val2
  else if !isEmpty val1 && !isEmpty val2 then
    if isPhoneF then
      if digitsOnly val2 != digitsOnly val1 then val2 else val1
    else
      if !isNameF && decide (val2.length > val1.length) then val2 else val1
  else val1

/-- `mergeEmployeeData` from `src/utils/helpers.js`: spread of `target`
with the seven listed fields resolved by `mergeFieldVal`. -/
def mergeEmployeeData (target source : Employee) : Employee :=
  { target with
    firstName := mergeFieldVal true false target.firstName source.firstName
    lastName := mergeFieldVal true false target.lastName source.lastName
    email := mergeFieldVal false false target.email source.email
    phone := mergeFieldVal false true target.phone source.phone
    jobTitle := mergeFieldVal false false target.jobTitle source.jobTitle
    linkedin := mergeFieldVal false false target.linkedin source.linkedin
    location := mergeFieldVal false false target.location source.location }

/-- The predicate the `employeeList.find` callback of
`findMatchingEmployee` evaluates on one existing record: the four
identity tests, in source order. -/
def empMatches (newEmp existingEmp : Employee) : Bool :=
  let nFirst := normalizeString newEmp.firstName
  let nLast := normalizeString newEmp.lastName
  let nFull := jsTrim (nFirst ++ " " ++ nLast)
  let nTitle := normalizeString newEmp.jobTitle
  -- 1. Email match
  (!isEmpty newEmp.email && !isEmpty existingEmp.email &&
    (jsTrim (jsLower newEmp.email) == jsTrim (jsLower existingEmp.email))) ||
  -- 2. Phone match
  (!isEmpty newEmp.phone && !isEmpty existingEmp.phone &&
    (let p1 := digitsOnly newEmp.phone
     let p2 := digitsOnly existingEmp.phone
     p1 != "" && p1 == p2)) ||
  -- 3. LinkedIn match
  (!isEmpty newEmp.linkedin && !isEmpty existingEmp.linkedin &&
    (let l1 := normalizeLinkedIn newEmp.linkedin
     let l2 := normalizeLinkedIn existingEmp.linkedin
     l1 != "" && l1 == l2)) ||
  -- 4. Name + title fuzzy match
  (let eFirst := normalizeString existingEmp.firstName
   let eLast := normalizeString existingEmp.lastName
   let eFull := jsTrim (eFirst ++ " " ++ eLast)
   let eTitle := normalizeString existingEmp.jobTitle
   nFull == eFull && nFull != "" &&
     (let titlesMatch := nTitle == eTitle ||
        (nTitle != "" && eTitle != "" &&
          (containsSub nTitle eTitle || containsSub eTitle nTitle))
      titlesMatch || isEmpty nTitle || isEmpty eTitle))

/-- `findMatchingEmployee` from `src/utils/helpers.js`:
`Array.prototype.find` over the list with the four-test predicate,
`null` (here `none`) when nothing matches. -/
def findMatchingEmployee (employeeList : List Employee) (newEmp : Employee) :
    Option Employee :=
  employeeList.find? (fun existingEmp => empMatches newEmp existingEmp)

/-- Specification-side matcher (follows the spec's words in §4.3 /
claim C2): walk the existing list in order, return the first record
satisfying any test, `none` when no record qualifies. -/
def firstMatchSpec (newEmp : Employee) : List Employee → Option Employee
  | [] => none
  | e :: rest => if empMatches newEmp e then some e else firstMatchSpec newEmp rest

/-- The seven fields `mergeEmployeeData` iterates over. -/
inductive MergeField where
  | firstName | lastName | email | phone | jobTitle | linkedin | location
deriving Repr, DecidableEq

/-- Projection of an employee record at one of the seven merged fields. -/
def empField : MergeField → Employee → String
  | .firstName, e => e.firstName
  | .lastName, e => e.lastName
  | .email, e => e.email
  | .phone, e => e.phone
  | .jobTitle, e => e.jobTitle
  | .linkedin, e => e.linkedin
  | .location, e => e.location

/-- Specification-side placeholder set (the token list named by claim
C10): the explicit tokens, compared case-insensitively after trimming,
plus any value containing "not revealed" or "no phone". -/
def placeholderSpec (v : String) : Bool :=
  let w := jsLower (jsTrim v)
  w = "n/a" || w = "-" || w = "no email" || w = "no phone" ||
    w = "unknown" || w = "no email found" ||
    containsSub w "not revealed" || containsSub w "no phone"

/-- First divergence witness: the two lists disagree at some position
that both of them reach. -/
def clashB : List Char → List Char → Bool
  | [], _ => false
  | _, [] => false
  | a :: as, b :: bs => a != b || clashB as bs

/-- Characters a LinkedIn profile slug is assumed to consist of in the
amended claim C8: lowercase ASCII letters. -/
def isSlugChar (c : Char) : Bool := 97 ≤ c.toNat && c.toNat ≤ 122

/-- Well-formed slug for the amended claim C8. -/
def slugOk (s : String) : Prop := s.data ≠ [] ∧ ∀ c ∈ s.data, isSlugChar c = true

/-- The prefixed URL forms of a profile slug whose normalization the
amended claim C8 equates with the bare slug: the bare path form and the
four protocol forms.  (The protocol-less `www.` form is excluded: the
source does not strip `www.` without a protocol.) -/
def linkedinUrlForms : List String :=
  ["linkedin.com/in/", "http://linkedin.com/in/", "https://linkedin.com/in/",
   "http://www.linkedin.com/in/", "https://www.linkedin.com/in/"]

/-- Blank employee record, used to build concrete test records. -/
def emp0 : Employee :=
  { id := "", firstName := "", lastName := "", email := "", phone := "",
    jobTitle := "", linkedin := "", location := "", phoneLocked := false,
    extraF := [] }

/-- Header category tag of the Field Mapper. -/
inductive HType where
  | company | employee | unknown
deriving Repr, DecidableEq

/-- Normalized header: canonical key plus category. -/
structure Header where
  key : String
  htype : HType
deriving Repr, DecidableEq

/-- `FIELD_MAPPINGS.company` from `src/config/index.js`. -/
def companyFieldMap : List (String × String) :=
  [("Company name", "name"), ("Company domain", "domain"),
   ("Company industry", "industry"), ("Company size", "size"),
   ("Company type", "type"), ("Company headquarters", "headquarters"),
   ("Company LinkedIn", "linkedin")]

/-- `FIELD_MAPPINGS.employee` from `src/config/index.js`. -/
def employeeFieldMap : List (String × String) :=
  [("First name", "firstName"), ("Last name", "lastName"), ("Email", "email"),
   ("Phone", "phone"), ("Job title", "jobTitle"), ("LinkedIn", "linkedin"),
   ("Location", "location")]

/-- Table lookup `FIELD_MAPPINGS.x[header]` (absent keys are undefined). -/
def lookupTable (m : List (String × String)) (k : String) : Option String :=
  (m.find? (fun p => p.1 == k)).map (·.2)

/-- `normalizeHeader` from the CSV parser: table lookup, then the
lowercase-underscore fallback. -/
def normalizeHeader (header : String) : Header :=
  let trimmed := jsTrim header
  match lookupTable companyFieldMap trimmed with
  | some k => ⟨k, .company⟩
  | none =>
    match lookupTable employeeFieldMap trimmed with
    | some k => ⟨k, .employee⟩
    | none => ⟨String.mk (collapseWsWith '_' false (jsLower trimmed).data), .unknown⟩

/-- `parseLine` from the CSV parser: quote-aware comma splitting with
doubled-quote escaping; every finished field is trimmed. -/
def parseLineAux : List Char → Bool → List Char → List String → List String
  | [], _, current, fields => fields ++ [jsTrim (String.mk current)]
  | '"' :: '"' :: rest, true, current, fields =>
    parseLineAux rest true (current ++ ['"']) fields
  | '"' :: rest, inQuotes, current, fields =>
    parseLineAux rest (!inQuotes) current fields
  | ',' :: rest, false, current, fields =>
    parseLineAux rest false [] (fields ++ [jsTrim (String.mk current)])
  | c :: rest, inQuotes, current, fields =>
    parseLineAux rest inQuotes (current ++ [c]) fields

/-- `parseLine(line)` with the initial state of the source's loop. -/
def parseLine (line : String) : List String := parseLineAux line.data false [] []

/-- Company record produced by the parsers. `ctype` embeds the source's
`type` field (a Lean keyword). -/
structure Company where
  id : String
  name : String
  domain : String
  industry : String
  size : String
  ctype : String
  headquarters : String
  linkedin : String
  employees : List Employee
deriving Repr, DecidableEq, Inhabited

/-- Deterministic stand-in for `generateId()`: the `n`-th fresh id of a
parse or import run (ids only need to be opaque strings). -/
def freshId (n : Nat) : String := "gen-" ++ toString n

/-- `str.replace(/^https?:\/\//, '')`. -/
def dropScheme (l : List Char) : List Char :=
  if ("https://".data).isPrefixOf l then l.drop 8
  else if ("http://".data).isPrefixOf l then l.drop 7
  else l

/-- `str.replace(/^www\./, '')`. -/
def dropWww (l : List Char) : List Char :=
  if ("www.".data).isPrefixOf l then l.drop 4 else l

/-- The company grouping key used by both parsers:
`(domain || name).toLowerCase()` with a leading protocol stripped, a
leading `www.` stripped, one trailing slash stripped, then trimmed. -/
def companyKeyOf (domainOrName : String) : String :=
  String.mk (trimChars (dropSlashEnd (dropWww (dropScheme
    (jsLower domainOrName).data))))

/-- Specification-side grouping key (claim C5's words): `(domain if
non-empty, else name)`, lowercased, leading `http://`/`https://`
stripped, leading `www.` stripped, a single trailing `/` stripped, then
trimmed. -/
def groupingKeySpec (domain name : String) : String :=
  String.mk (trimChars (dropSlashEnd (dropWww (dropScheme
    (jsLower (if domain = "" then name else domain)).data))))

/-- The flat `record` object of one CSV row as a total lookup (absent
and empty-valued keys both read back as `""`, matching JS falsiness);
later headers with the same key override earlier ones. -/
def rowFieldsAll (hs : List Header) (vs : List String) : String → String :=
  hs.enum.foldl
    (fun acc p k => if k == p.2.key then vs.getD p.1 "" else acc k)
    (fun _ => "")

/-- The company- or employee-scoped sub-record of one CSV row. -/
def rowFieldsBy (hs : List Header) (vs : List String) (t : HType) : String → String :=
  hs.enum.foldl
    (fun acc p k =>
      if p.2.htype == t && k == p.2.key then vs.getD p.1 "" else acc k)
    (fun _ => "")

/-- Key presence in the insertion-ordered company map. -/
def mapHasKey (m : List (String × Company)) (k : String) : Bool :=
  m.any (fun p => p.1 == k)

/-- Append an employee to the (unique) entry with key `k`
(`companyMap.get(companyKey).employees.push(...)`). -/
def mapPushEmp : List (String × Company) → String → Employee → List (String × Company)
  | [], _, _ => []
  | p :: rest, k, e =>
    if p.1 == k then (p.1, { p.2 with employees := p.2.employees ++ [e] }) :: rest
    else p :: mapPushEmp rest k e

/-- One data row of the CSV parse loop: build the scoped records, group
by the normalized key, create the company on first sight, and append an
employee exactly when a mapped name is present. -/
def csvStep (headers : List Header) (st : List (String × Company) × Nat)
    (row : String) : List (String × Company) × Nat :=
  let vs := parseLine row
  let record := rowFieldsAll headers vs
  let companyData := rowFieldsBy headers vs .company
  let employeeData := rowFieldsBy headers vs .employee
  let companyName := jsOr (companyData "name") (jsOr (record "name") "N/A")
  let domain := companyData "domain"
  let key := companyKeyOf (jsOr domain companyName)
  let st1 :=
    if mapHasKey st.1 key then st
    else (st.1 ++ [(key,
      { id := freshId st.2, name := companyName, domain := domain,
        industry := companyData "industry", size := companyData "size",
        ctype := companyData "type", headquarters := companyData "headquarters",
        linkedin := companyData "linkedin", employees := [] })], st.2 + 1)
  if employeeData "firstName" != "" || employeeData "lastName" != "" then
    (mapPushEmp st1.1 key
      { id := freshId st1.2, firstName := employeeData "firstName",
        lastName := employeeData "lastName", email := employeeData "email",
        phone := employeeData "phone", jobTitle := employeeData "jobTitle",
        linkedin := employeeData "linkedin", location := employeeData "location",
        phoneLocked := false, extraF := [] }, st1.2 + 1)
  else st1

/-- JS `String.prototype.split` with a single-character separator,
written structurally so the kernel can evaluate it. -/
def splitOnChar (sep : Char) : List Char → List Char → List String
  | [], cur => [String.mk cur]
  | c :: rest, cur =>
    if c = sep then String.mk cur :: splitOnChar sep rest []
    else splitOnChar sep rest (cur ++ [c])

/-- The non-blank lines of the CSV input
(`text.trim().split('\n').filter(l => l.trim())`). -/
def csvLines (text : String) : List String :=
  (splitOnChar '\n' (jsTrim text).data []).filter (fun l => jsTrim l != "")

/-- The normalized header row of a CSV input. -/
def csvHeaders (text : String) : List Header :=
  match csvLines text with
  | [] => []
  | hline :: _ => (parseLine hline).map normalizeHeader

/-- The data rows of a CSV input (empty when fewer than two lines). -/
def csvDataRows (text : String) : List String :=
  match csvLines text with
  | [] => []
  | _ :: dataLines => dataLines

/-- The internal key-to-company map built by the CSV parse. -/
def csvEntries (text : String) : List (String × Company) :=
  (( csvDataRows text).foldl (csvStep (csvHeaders text)) ([], 0)).1

/-- `parse` from the CSV parser (`Array.from(companyMap.values())`). -/
def parseCSV (text : String) : List Company := (csvEntries text).map (·.2)

/-- Whether one CSV data row emits an employee: a non-empty mapped
`firstName` or `lastName` (claim C6's condition). -/
def csvRowQualifies (headers : List Header) (row : String) : Bool :=
  let employeeData := rowFieldsBy headers (parseLine row) .employee
  employeeData "firstName" != "" || employeeData "lastName" != ""

/-- The grouping key of one CSV data row. -/
def csvRowKey (headers : List Header) (row : String) : String :=
  let vs := parseLine row
  let record := rowFieldsAll headers vs
  let companyData := rowFieldsBy headers vs .company
  let companyName := jsOr (companyData "name") (jsOr (record "name") "N/A")
  companyKeyOf (jsOr (companyData "domain") companyName)

/-- The employee contributed by one qualifying CSV data row, with the
run-dependent fresh id blanked out. -/
def csvRowEmpCore (headers : List Header) (row : String) : Employee :=
  let employeeData := rowFieldsBy headers (parseLine row) .employee
  { id := "", firstName := employeeData "firstName",
    lastName := employeeData "lastName", email := employeeData "email",
    phone := employeeData "phone", jobTitle := employeeData "jobTitle",
    linkedin := employeeData "linkedin", location := employeeData "location",
    phoneLocked := false, extraF := [] }

/-- Identity of an employee record with the id blanked out. -/
def empCore (e : Employee) : Employee := { e with id := "" }

/-- Employee list of the map entry with key `k` (empty when absent). -/
def lookupEmps (m : List (String × Company)) (k : String) : List Employee :=
  ((m.find? (fun p => p.1 == k)).map (fun p => p.2.employees)).getD []

/-- Concrete CSV input for claim C5: three rows whose `Company domain`
values differ only in protocol/`www.`/trailing-slash decoration. -/
def csvExampleC5 : String :=
  "Company domain,First name\nhttps://Acme.com/,Alice\nwww.acme.com,Bob\nacme.com,Carol"

/-- One newly parsed employee folded into the accumulated list — the
per-employee body of the `importToFirebase` merge loop: on match, merge,
force the persisted id (`match.id || mergedEmp.id || generateId()`), and
replace in place at the matched index; on no match, ensure an id and
append. -/
def importEmpStep (p : List Employee × Nat) (newEmp : Employee) :
    List Employee × Nat :=
  match findMatchingEmployee p.1 newEmp with
  | some m =>
    let mergedEmp := mergeEmployeeData m newEmp
    let withId :=
      if m.id != "" then { mergedEmp with id := m.id }
      else if mergedEmp.id != "" then mergedEmp
      else { mergedEmp with id := freshId p.2 }
    let counter :=
      if m.id != "" then p.2 else if mergedEmp.id != "" then p.2 else p.2 + 1
    let idx := p.1.findIdx (fun e => empMatches newEmp e)
    (p.1.set idx withId, counter)
  | none =>
    let withId := if newEmp.id != "" then newEmp else { newEmp with id := freshId p.2 }
    let counter := if newEmp.id != "" then p.2 else p.2 + 1
    (p.1 ++ [withId], counter)

/-- The per-company employee merge loop of `importToFirebase`, starting
from the full persisted employee list. -/
def importEmpLoop (p : List Employee × Nat) (newEmps : List Employee) :
    List Employee × Nat :=
  newEmps.foldl importEmpStep p

/-- The company loop of `importToFirebase`.  The whole loop runs inside
one `try`; the persistence writes (`updateCompany` for an existing
company, `addCompany` for a new one) are modelled by the outcome oracle
`ok` on the company's lookup key, and a failing write throws: the
`catch` reports that company's error and no further company is
processed.  Returns the successful writes (key and employee payload) in
order, the final fresh-id counter, and the reported error key. -/
def importCompaniesLoop (ok : String → Bool) (existingMap : List (String × Company)) :
    List Company → Nat → List (String × List Employee) →
    List (String × List Employee) × Nat × Option String
  | [], n, written => (written, n, none)
  | company :: rest, n, written =>
    let key := jsLower company.name
    match existingMap.reverse.find? (fun p => p.1 == key) with
    | some pr =>
      let res := importEmpLoop (pr.2.employees, n) company.employees
      if ok key then
        importCompaniesLoop ok existingMap rest res.2 (written ++ [(key, res.1)])
      else (written, res.2, some key)
    | none =>
      if ok key then
        importCompaniesLoop ok existingMap rest n (written ++ [(key, company.employees)])
      else (written, n, some key)

/-- `importToFirebase`: build the lowercased-name map of the persisted
companies (later duplicates win, as with `new Map(...)`), then run the
company loop over the parsed batch. -/
def importToFirebase (ok : String → Bool) (existing : List Company)
    (parsed : List Company) :
    List (String × List Employee) × Nat × Option String :=
  importCompaniesLoop ok (existing.map (fun c => (jsLower c.name, c))) parsed 0 []

/-- Concrete companies for the claim C1 counterexample. -/
def compA : Company :=
  { id := "idA", name := "A", domain := "", industry := "", size := "",
    ctype := "", headquarters := "", linkedin := "", employees := [] }

/-- Second concrete company for the claim C1 counterexample. -/
def compB : Company :=
  { id := "idB", name := "B", domain := "", industry := "", size := "",
    ctype := "", headquarters := "", linkedin := "", employees := [] }

/-- Concrete persisted employee for the claim C9 witness. -/
def empP : Employee :=
  { emp0 with id := "p1", email := "jane@acme.com", firstName := "Jane" }

/-- Concrete newly parsed employee for the claim C9 witness. -/
def empN : Employee :=
  { emp0 with id := "n1", email := "JANE@acme.com ", phone := "555" }

/-- JavaScript values as the JSON parser sees them; `undefined` is the JS
`undefined` produced by a missing property. -/
inductive JVal where
  | null
  | undefined
  | bool (b : Bool)
  | num (n : Int)
  | str (s : String)
  | arr (elems : List JVal)
  | obj (flds : List (String × JVal))

/-- The one exception class the embedded JSON parser can raise: a JS
`TypeError` (property access on null/undefined, or calling a string or
array method on a value lacking it). -/
inductive JsErr where
  | typeError
deriving Repr, DecidableEq

/-- JS property access `v[k]` / `v.k`: throws on `null`/`undefined`,
reads the field of an object (first match; `undefined` when missing),
and yields `undefined` on every other value. -/
def getProp (v : JVal) (k : String) : Except JsErr JVal :=
  match v with
  | .null => .error .typeError
  | .undefined => .error .typeError
  | .obj flds => .ok (((flds.find? (fun p => p.1 == k)).map (·.2)).getD .undefined)
  | _ => .ok .undefined

/-- JS truthiness. -/
def jsTruthy : JVal → Bool
  | .null => false
  | .undefined => false
  | .bool b => b
  | .num n => n != 0
  | .str s => s != ""
  | .arr _ => true
  | .obj _ => true

/-- JS `a || b` on arbitrary values. -/
def jsOrJ (a b : JVal) : JVal := if jsTruthy a then a else b

/-- JS `.toLowerCase()`: only strings have the method, every other
receiver raises a `TypeError`. -/
def jvalToLower (v : JVal) : Except JsErr String :=
  match v with
  | .str s => .ok (jsLower s)
  | _ => .error .typeError

/-- JS `Array.isArray`. -/
def isArr : JVal → Bool
  | .arr _ => true
  | _ => false

/-- JS `.map(...)` receiver check: throws unless the value is an array. -/
def asArr (v : JVal) : Except JsErr (List JVal) :=
  match v with
  | .arr xs => .ok xs
  | _ => .error .typeError

/-- Is a value the JS `undefined`? -/
def isUndefined : JVal → Bool
  | .undefined => true
  | _ => false

/-- `normalizeRecord` from `src/parsers/json.js`: for every mapping
entry try the original key, then the mapped key, keeping defined values
under the mapped name. -/
def normalizeRecord (record : JVal) (mappings : List (String × String)) :
    Except JsErr (List (String × JVal)) :=
  mappings.foldlM
    (fun acc entry => do
      let vOrig ← getProp record entry.1
      if !isUndefined vOrig then
        pure (acc ++ [(entry.2, vOrig)])
      else
        let vMapped ← getProp record entry.2
        if !isUndefined vMapped then pure (acc ++ [(entry.2, vMapped)])
        else pure acc)
    []

/-- Field lookup in a normalized record (missing keys are `undefined`). -/
def lookupJ (l : List (String × JVal)) (k : String) : JVal :=
  ((l.find? (fun p => p.1 == k)).map (·.2)).getD .undefined

/-- Employee record of the JSON parser; in JS the field values are
whatever the input held, so they remain arbitrary values. -/
structure EmployeeJ where
  id : JVal
  firstName : JVal
  lastName : JVal
  email : JVal
  phone : JVal
  jobTitle : JVal
  linkedin : JVal
  location : JVal

/-- Company record of the JSON parser. -/
structure CompanyJ where
  id : JVal
  name : JVal
  domain : JVal
  industry : JVal
  size : JVal
  ctype : JVal
  headquarters : JVal
  linkedin : JVal
  employees : List EmployeeJ

/-- One employee of the pre-grouped JSON branch, with the fresh-id
counter threaded for `generateId()`. -/
def preGroupedEmp (n : Nat) (emp : JVal) : Except JsErr (EmployeeJ × Nat) := do
  let eid ← getProp emp "id"
  let f1 ← getProp emp "firstName"
  let f2 ← getProp emp "First name"
  let l1 ← getProp emp "lastName"
  let l2 ← getProp emp "Last name"
  let e1 ← getProp emp "email"
  let e2 ← getProp emp "Email"
  let p1 ← getProp emp "phone"
  let p2 ← getProp emp "Phone"
  let j1 ← getProp emp "jobTitle"
  let j2 ← getProp emp "Job title"
  let li1 ← getProp emp "linkedin"
  let li2 ← getProp emp "LinkedIn"
  let lo1 ← getProp emp "location"
  let lo2 ← getProp emp "Location"
  let idn := if jsTruthy eid then (eid, n) else (JVal.str (freshId n), n + 1)
  pure ({ id := idn.1,
          firstName := jsOrJ f1 (jsOrJ f2 (.str "")),
          lastName := jsOrJ l1 (jsOrJ l2 (.str "")),
          email := jsOrJ e1 (jsOrJ e2 (.str "")),
          phone := jsOrJ p1 (jsOrJ p2 (.str "")),
          jobTitle := jsOrJ j1 (jsOrJ j2 (.str "")),
          linkedin := jsOrJ li1 (jsOrJ li2 (.str "")),
          location := jsOrJ lo1 (jsOrJ lo2 (.str "")) }, idn.2)

/-- The employees of one pre-grouped company, in order. -/
def preGroupedEmps (n : Nat) : List JVal → Except JsErr (List EmployeeJ × Nat)
  | [] => pure ([], n)
  | e :: rest => do
    let en ← preGroupedEmp n e
    let rn ← preGroupedEmps en.2 rest
    pure (en.1 :: rn.1, rn.2)

/-- One company of the pre-grouped JSON branch. -/
def preGroupedCompany (n : Nat) (company : JVal) : Except JsErr (CompanyJ × Nat) := do
  let cid ← getProp company "id"
  let nm1 ← getProp company "name"
  let nm2 ← getProp company "Company name"
  let d1 ← getProp company "domain"
  let d2 ← getProp company "Company domain"
  let i1 ← getProp company "industry"
  let i2 ← getProp company "Company industry"
  let s1 ← getProp company "size"
  let s2 ← getProp company "Company size"
  let t1 ← getProp company "type"
  let t2 ← getProp company "Company type"
  let h1 ← getProp company "headquarters"
  let h2 ← getProp company "Company headquarters"
  let li1 ← getProp company "linkedin"
  let li2 ← getProp company "Company LinkedIn"
  let emps0 ← getProp company "employees"
  let rawEmps ← if jsTruthy emps0 then asArr emps0 else pure []
  let idn := if jsTruthy cid then (cid, n) else (JVal.str (freshId n), n + 1)
  let emps ← preGroupedEmps idn.2 rawEmps
  pure ({ id := idn.1,
          name := jsOrJ nm1 (jsOrJ nm2 (.str "N/A")),
          domain := jsOrJ d1 (jsOrJ d2 (.str "")),
          industry := jsOrJ i1 (jsOrJ i2 (.str "")),
          size := jsOrJ s1 (jsOrJ s2 (.str "")),
          ctype := jsOrJ t1 (jsOrJ t2 (.str "")),
          headquarters := jsOrJ h1 (jsOrJ h2 (.str "")),
          linkedin := jsOrJ li1 (jsOrJ li2 (.str "")),
          employees := emps.1 }, emps.2)

/-- `data.map(company => ...)` of the pre-grouped JSON branch. -/
def preGroupedCompanies (n : Nat) : List JVal → Except JsErr (List CompanyJ × Nat)
  | [] => pure ([], n)
  | c :: rest => do
    let cn ← preGroupedCompany n c
    let rn ← preGroupedCompanies cn.2 rest
    pure (cn.1 :: rn.1, rn.2)

/-- Key presence in the flat JSON company map. -/
def mapHasKeyJ (m : List (String × CompanyJ)) (k : String) : Bool :=
  m.any (fun p => p.1 == k)

/-- Append an employee to the (unique) flat JSON map entry with key `k`. -/
def mapPushEmpJ : List (String × CompanyJ) → String → EmployeeJ → List (String × CompanyJ)
  | [], _, _ => []
  | p :: rest, k, e =>
    if p.1 == k then (p.1, { p.2 with employees := p.2.employees ++ [e] }) :: rest
    else p :: mapPushEmpJ rest k e

/-- Effective company name of one flat JSON item
(`companyData.name || item.name || item['Company name'] || 'N/A'`). -/
def flatEffName (item : JVal) : Except JsErr JVal := do
  let companyData ← normalizeRecord item companyFieldMap
  let n1 ← getProp item "name"
  let n2 ← getProp item "Company name"
  pure (jsOrJ (lookupJ companyData "name") (jsOrJ n1 (jsOrJ n2 (.str "N/A"))))

/-- Effective company domain of one flat JSON item. -/
def flatEffDomain (item : JVal) : Except JsErr JVal := do
  let companyData ← normalizeRecord item companyFieldMap
  let d1 ← getProp item "domain"
  let d2 ← getProp item "Company domain"
  pure (jsOrJ (lookupJ companyData "domain") (jsOrJ d1 (jsOrJ d2 (.str ""))))

/-- The grouping key of one flat JSON item, throwing when
`(domain || companyName)` is not a string (`.toLowerCase()`). -/
def flatCompanyKey (item : JVal) : Except JsErr String := do
  let domain ← flatEffDomain item
  let companyName ← flatEffName item
  let lowered ← jvalToLower (jsOrJ domain companyName)
  pure (String.mk (trimChars (dropSlashEnd (dropWww (dropScheme lowered.data)))))

/-- The company object created on first sight of a key in the flat JSON
loop. -/
def flatNewCompany (n : Nat) (item : JVal) : Except JsErr CompanyJ := do
  let companyData ← normalizeRecord item companyFieldMap
  let companyName ← flatEffName item
  let domain ← flatEffDomain item
  let i1 ← getProp item "industry"
  let s1 ← getProp item "size"
  let t1 ← getProp item "type"
  let h1 ← getProp item "headquarters"
  let li1 ← getProp item "linkedin"
  pure { id := JVal.str (freshId n), name := companyName, domain := domain,
         industry := jsOrJ (lookupJ companyData "industry") (jsOrJ i1 (.str "")),
         size := jsOrJ (lookupJ companyData "size") (jsOrJ s1 (.str "")),
         ctype := jsOrJ (lookupJ companyData "type") (jsOrJ t1 (.str "")),
         headquarters := jsOrJ (lookupJ companyData "headquarters") (jsOrJ h1 (.str "")),
         linkedin := jsOrJ (lookupJ companyData "linkedin") (jsOrJ li1 (.str "")),
         employees := [] }

/-- Effective first name of one flat JSON item. -/
def flatEffFirst (item : JVal) : Except JsErr JVal := do
  let employeeData ← normalizeRecord item employeeFieldMap
  let f1 ← getProp item "firstName"
  let f2 ← getProp item "First name"
  pure (jsOrJ (lookupJ employeeData "firstName") (jsOrJ f1 (jsOrJ f2 (.str ""))))

/-- Effective last name of one flat JSON item. -/
def flatEffLast (item : JVal) : Except JsErr JVal := do
  let employeeData ← normalizeRecord item employeeFieldMap
  let l1 ← getProp item "lastName"
  let l2 ← getProp item "Last name"
  pure (jsOrJ (lookupJ employeeData "lastName") (jsOrJ l1 (jsOrJ l2 (.str ""))))

/-- The employee object pushed by a qualifying flat JSON item. -/
def flatNewEmployee (n : Nat) (item : JVal) : Except JsErr EmployeeJ := do
  let employeeData ← normalizeRecord item employeeFieldMap
  let firstName ← flatEffFirst item
  let lastName ← flatEffLast item
  let e1 ← getProp item "email"
  let p1 ← getProp item "phone"
  let j1 ← getProp item "jobTitle"
  let j2 ← getProp item "title"
  let li2 ← getProp item "linkedin"
  let lo1 ← getProp item "location"
  pure { id := JVal.str (freshId n),
         firstName := firstName, lastName := lastName,
         email := jsOrJ (lookupJ employeeData "email") (jsOrJ e1 (.str "")),
         phone := jsOrJ (lookupJ employeeData "phone") (jsOrJ p1 (.str "")),
         jobTitle := jsOrJ (lookupJ employeeData "jobTitle")
           (jsOrJ j1 (jsOrJ j2 (.str ""))),
         linkedin := jsOrJ (lookupJ employeeData "linkedin") (jsOrJ li2 (.str "")),
         location := jsOrJ (lookupJ employeeData "location") (jsOrJ lo1 (.str "")) }

/-- One item of the flat JSON loop: normalize, group by the company key
(computed through `.toLowerCase()`, which throws on a non-string), and
append an employee exactly when the effective first or last name is
truthy.  The source computes each piece once inside one loop body; here
the pieces are named subcomputations — re-running them is effect-free in
`Except` (property access on the same item yields the same value and the
same throw condition), so result and error behavior coincide with the
source. -/
def flatStep (st : List (String × CompanyJ) × Nat) (item : JVal) :
    Except JsErr (List (String × CompanyJ) × Nat) := do
  let companyKey ← flatCompanyKey item
  let st1 ←
    if mapHasKeyJ st.1 companyKey then pure st
    else do
      let c ← flatNewCompany st.2 item
      pure (st.1 ++ [(companyKey, c)], st.2 + 1)
  let firstName ← flatEffFirst item
  let lastName ← flatEffLast item
  if jsTruthy firstName || jsTruthy lastName then do
    let e ← flatNewEmployee st1.2 item
    pure (mapPushEmpJ st1.1 companyKey e, st1.2 + 1)
  else pure st1

/-- The flat JSON loop over all items. -/
def flatSteps (st : List (String × CompanyJ) × Nat) :
    List JVal → Except JsErr (List (String × CompanyJ) × Nat)
  | [] => pure st
  | item :: rest => do
    let st1 ← flatStep st item
    flatSteps st1 rest

/-- `parse` from `src/parsers/json.js` applied to a decoded value:
non-arrays give `[]`; an array whose first element carries an
`employees` array takes the pre-grouped branch, everything else the
flat-grouping branch. -/
def parseJSONData (data : JVal) : Except JsErr (List CompanyJ) :=
  match data with
  | .arr items =>
    match items with
    | [] => do
      let st ← flatSteps ([], 0) []
      pure (st.1.map (·.2))
    | first :: _ => do
      let e0 ← getProp first "employees"
      if isArr e0 then do
        let cn ← preGroupedCompanies 0 items
        pure cn.1
      else do
        let st ← flatSteps ([], 0) items
        pure (st.1.map (·.2))
  | _ => .ok []

/-- `parse` from `src/parsers/json.js` on a string input, with the JSON
decode modelled by its result: `none` when `JSON.parse` would throw (the
source catches the exception and returns `[]`). -/
def parseJSON (decoded : Option JVal) : Except JsErr (List CompanyJ) :=
  match decoded with
  | none => .ok []
  | some d => parseJSONData d

/-- A flat JSON row all of whose values are strings (the shape the
amended claim C7 quantifies over). -/
def strObj (r : List (String × String)) : JVal :=
  .obj (r.map (fun p => (p.1, JVal.str p.2)))

/-- Pure counterpart of `getProp` on a `strObj` row. -/
def strLookup (r : List (String × String)) (k : String) : JVal :=
  match r.find? (fun p => p.1 == k) with
  | some p => .str p.2
  | none => .undefined

/-- A pre-grouped JSON company whose scalar fields are strings and whose
`employees` are string rows. -/
def strGroupedObj (flds : List (String × String))
    (emps : List (List (String × String))) : JVal :=
  .obj (flds.map (fun p => (p.1, JVal.str p.2)) ++
    [("employees", .arr (emps.map strObj))])

/-- The string content of a value (`""` for non-strings), used to state
the grouping key of a string row purely. -/
def u2s : JVal → String
  | .str s => s
  | _ => ""

/-- Pure counterpart of `normalizeRecord` on a string row. -/
def normRecPureS (r : List (String × String)) : List (String × String) → List (String × String)
  | [] => []
  | entry :: rest =>
    (match r.find? (fun p => p.1 == entry.1) with
     | some p => [(entry.2, p.2)]
     | none =>
       match r.find? (fun p => p.1 == entry.2) with
       | some p => [(entry.2, p.2)]
       | none => []) ++ normRecPureS r rest

/-- The normalized record of a string row, back in value form. -/
def strRecJ (r : List (String × String)) (m : List (String × String)) :
    List (String × JVal) :=
  (normRecPureS r m).map (fun p => (p.1, JVal.str p.2))

/-- Effective company name of a flat string row. -/
def jsonRowName (r : List (String × String)) : JVal :=
  jsOrJ (lookupJ (strRecJ r companyFieldMap) "name")
    (jsOrJ (strLookup r "name") (jsOrJ (strLookup r "Company name") (.str "N/A")))

/-- Effective company domain of a flat string row. -/
def jsonRowDomain (r : List (String × String)) : JVal :=
  jsOrJ (lookupJ (strRecJ r companyFieldMap) "domain")
    (jsOrJ (strLookup r "domain") (jsOrJ (strLookup r "Company domain") (.str "")))

/-- Grouping key of a flat string row. -/
def jsonRowKey (r : List (String × String)) : String :=
  String.mk (trimChars (dropSlashEnd (dropWww (dropScheme
    (jsLower (u2s (jsOrJ (jsonRowDomain r) (jsonRowName r)))).data))))

/-- Effective first name of a flat string row. -/
def jsonRowFirst (r : List (String × String)) : JVal :=
  jsOrJ (lookupJ (strRecJ r employeeFieldMap) "firstName")
    (jsOrJ (strLookup r "firstName") (jsOrJ (strLookup r "First name") (.str "")))

/-- Effective last name of a flat string row. -/
def jsonRowLast (r : List (String × String)) : JVal :=
  jsOrJ (lookupJ (strRecJ r employeeFieldMap) "lastName")
    (jsOrJ (strLookup r "lastName") (jsOrJ (strLookup r "Last name") (.str "")))

/-- Whether a flat string row emits an employee (claim C6's condition
for the JSON parser). -/
def jsonRowQualifies (r : List (String × String)) : Bool :=
  jsTruthy (jsonRowFirst r) || jsTruthy (jsonRowLast r)

/-- The employee contributed by one qualifying flat string row, id
blanked. -/
def jsonRowEmpCore (r : List (String × String)) : EmployeeJ :=
  { id := .str "",
    firstName := jsonRowFirst r, lastName := jsonRowLast r,
    email := jsOrJ (lookupJ (strRecJ r employeeFieldMap) "email")
      (jsOrJ (strLookup r "email") (.str "")),
    phone := jsOrJ (lookupJ (strRecJ r employeeFieldMap) "phone")
      (jsOrJ (strLookup r "phone") (.str "")),
    jobTitle := jsOrJ (lookupJ (strRecJ r employeeFieldMap) "jobTitle")
      (jsOrJ (strLookup r "jobTitle") (jsOrJ (strLookup r "title") (.str ""))),
    linkedin := jsOrJ (lookupJ (strRecJ r employeeFieldMap) "linkedin")
      (jsOrJ (strLookup r "linkedin") (.str "")),
    location := jsOrJ (lookupJ (strRecJ r employeeFieldMap) "location")
      (jsOrJ (strLookup r "location") (.str "")) }

/-- The company created on first sight of a flat string row's key. -/
def newCompanyJ (n : Nat) (r : List (String × String)) : CompanyJ :=
  { id := .str (freshId n), name := jsonRowName r, domain := jsonRowDomain r,
    industry := jsOrJ (lookupJ (strRecJ r companyFieldMap) "industry")
      (jsOrJ (strLookup r "industry") (.str "")),
    size := jsOrJ (lookupJ (strRecJ r companyFieldMap) "size")
      (jsOrJ (strLookup r "size") (.str "")),
    ctype := jsOrJ (lookupJ (strRecJ r companyFieldMap) "type")
      (jsOrJ (strLookup r "type") (.str "")),
    headquarters := jsOrJ (lookupJ (strRecJ r companyFieldMap) "headquarters")
      (jsOrJ (strLookup r "headquarters") (.str "")),
    linkedin := jsOrJ (lookupJ (strRecJ r companyFieldMap) "linkedin")
      (jsOrJ (strLookup r "linkedin") (.str "")),
    employees := [] }

/-- The employee contributed by one qualifying flat string row with its
fresh id. -/
def jsonRowEmp (n : Nat) (r : List (String × String)) : EmployeeJ :=
  { jsonRowEmpCore r with id := .str (freshId n) }

/-- Pure form of `flatStep` on a string row. -/
def flatStepPure (st : List (String × CompanyJ) × Nat)
    (r : List (String × String)) : List (String × CompanyJ) × Nat :=
  let companyKey := jsonRowKey r
  let st1 :=
    if mapHasKeyJ st.1 companyKey then st
    else (st.1 ++ [(companyKey, newCompanyJ st.2 r)], st.2 + 1)
  if jsonRowQualifies r then
    (mapPushEmpJ st1.1 companyKey (jsonRowEmp st1.2 r), st1.2 + 1)
  else st1

/-- Identity of a JSON employee record with the id blanked out. -/
def empCoreJ (e : EmployeeJ) : EmployeeJ := { e with id := .str "" }

/-- Employee list of the flat JSON map entry with key `k`. -/
def lookupEmpsJ (m : List (String × CompanyJ)) (k : String) : List EmployeeJ :=
  ((m.find? (fun p => p.1 == k)).map (fun p => p.2.employees)).getD []

/-- Concrete flat JSON rows for claim C5: the three decorated domains. -/
def jsonExampleC5 : List JVal :=
  [strObj [("Company domain", "https://Acme.com/"), ("First name", "Alice")],
   strObj [("Company domain", "www.acme.com"), ("First name", "Bob")],
   strObj [("Company domain", "acme.com"), ("First name", "Carol")]]

end RNC

namespace RNC

/-! ## Theorems -/

/-- Helper: `mergeFieldVal` for `firstName`/`lastName` keeps the target
whenever the target value is non-empty or the source value is empty. -/
theorem mergeFieldVal_name (v1 v2 : String) :
    mergeFieldVal true false v1 v2 =
      (if isEmpty v1 && !isEmpty v2 then v2 else v1) := by
  unfold mergeFieldVal
  cases h1 : isEmpty v1 <;> cases h2 : isEmpty v2 <;> simp [h1, h2]

/-- Helper: `mergeFieldVal` for `phone` follows the digit-comparison rule. -/
theorem mergeFieldVal_phone (v1 v2 : String) :
    mergeFieldVal false true v1 v2 =
      (if isEmpty v1 && !isEmpty v2 then v2
       else if !isEmpty v1 && !isEmpty v2 && digitsOnly v2 != digitsOnly v1 then v2
       else v1) := by
  unfold mergeFieldVal
  cases h1 : isEmpty v1 <;> cases h2 : isEmpty v2 <;> simp [h1, h2]

/-- Helper: `mergeFieldVal` for the longer-string-wins fields. -/
theorem mergeFieldVal_long (v1 v2 : String) :
    mergeFieldVal false false v1 v2 =
      (if isEmpty v1 && !isEmpty v2 then v2
       else if !isEmpty v1 && !isEmpty v2 && decide (v2.length > v1.length) then v2
       else v1) := by
  unfold mergeFieldVal
  cases h1 : isEmpty v1 <;> cases h2 : isEmpty v2 <;> simp [h1, h2]

/-- C2: `findMatchingEmployee` returns the first record in list order
satisfying any of the four identity tests (the per-record test order
being the source's), and `none` when no record satisfies any test; it
never selects a later record over an earlier qualifying one, as
witnessed by its agreement with the in-order first-match recursion. -/
theorem findMatchingEmployee_first_in_order (l : List Employee) (e : Employee) :
    findMatchingEmployee l e = firstMatchSpec e l ∧
    (findMatchingEmployee l e = none ↔ ∀ r ∈ l, empMatches e r = false) := by
  constructor
  · induction l with
    | nil => rfl
    | cons h t ih =>
      simp only [findMatchingEmployee, firstMatchSpec, List.find?] at *
      cases hm : empMatches e h <;> simp [hm, ih]
  · simp only [findMatchingEmployee, List.find?_eq_none, Bool.not_eq_true]

/-- C3: the per-field merge policy of `mergeEmployeeData`: a non-empty
source fills an empty target; with both sides non-empty, `phone` takes
the source exactly when the digit-only forms differ, names always keep
the target, and the remaining fields take the source exactly when its
raw length strictly exceeds the target's; otherwise (source empty) the
target value is kept. -/
theorem mergeEmployeeData_field_policy (t s : Employee) :
    (mergeEmployeeData t s).firstName =
      (if isEmpty t.firstName && !isEmpty s.firstName then s.firstName else t.firstName) ∧
    (mergeEmployeeData t s).lastName =
      (if isEmpty t.lastName && !isEmpty s.lastName then s.lastName else t.lastName) ∧
    (mergeEmployeeData t s).email =
      (if isEmpty t.email && !isEmpty s.email then s.email
       else if !isEmpty t.email && !isEmpty s.email && decide (s.email.length > t.email.length)
         then s.email else t.email) ∧
    (mergeEmployeeData t s).phone =
      (if isEmpty t.phone && !isEmpty s.phone then s.phone
       else if !isEmpty t.phone && !isEmpty s.phone && digitsOnly s.phone != digitsOnly t.phone
         then s.phone else t.phone) ∧
    (mergeEmployeeData t s).jobTitle =
      (if isEmpty t.jobTitle && !isEmpty s.jobTitle then s.jobTitle
       else if !isEmpty t.jobTitle && !isEmpty s.jobTitle && decide (s.jobTitle.length > t.jobTitle.length)
         then s.jobTitle else t.jobTitle) ∧
    (mergeEmployeeData t s).linkedin =
      (if isEmpty t.linkedin && !isEmpty s.linkedin then s.linkedin
       else if !isEmpty t.linkedin && !isEmpty s.linkedin && decide (s.linkedin.length > t.linkedin.length)
         then s.linkedin else t.linkedin) ∧
    (mergeEmployeeData t s).location =
      (if isEmpty t.location && !isEmpty s.location then s.location
       else if !isEmpty t.location && !isEmpty s.location && decide (s.location.length > t.location.length)
         then s.location else t.location) := by
  refine ⟨?_, ?_, ?_, ?_, ?_, ?_, ?_⟩ <;>
    simp only [mergeEmployeeData] <;>
    first
      | exact mergeFieldVal_name _ _
      | exact mergeFieldVal_phone _ _
      | exact mergeFieldVal_long _ _

/-- C4: `mergeEmployeeData` carries every field of the target outside
the seven merged ones forward unchanged — in particular `id`,
`phoneLocked`, and any additional own properties copied by the object
spread. -/
theorem mergeEmployeeData_frame (t s : Employee) :
    (mergeEmployeeData t s).id = t.id ∧
    (mergeEmployeeData t s).phoneLocked = t.phoneLocked ∧
    (mergeEmployeeData t s).extraF = t.extraF :=
  ⟨rfl, rfl, rfl⟩

/-- Helper: every placeholder token is empty in the source's sense. -/
theorem isEmpty_of_placeholderSpec {v : String} (h : placeholderSpec v = true) :
    isEmpty v = true := by
  simp only [placeholderSpec, Bool.or_eq_true, decide_eq_true_eq] at h
  simp only [isEmpty, Bool.or_eq_true, decide_eq_true_eq]
  tauto

/-- C10: `mergeEmployeeData` treats the placeholder tokens as empty on
every one of the seven merged fields: a placeholder source value never
replaces a non-empty (non-placeholder) target value, and a placeholder
target value is replaced by any source value that is a genuine value
(non-blank and not itself a placeholder). -/
theorem mergeEmployeeData_placeholder (t s : Employee) (f : MergeField) :
    (placeholderSpec (empField f t) = true → isEmpty (empField f s) = false →
      empField f (mergeEmployeeData t s) = empField f s) ∧
    (isEmpty (empField f t) = false → placeholderSpec (empField f s) = true →
      empField f (mergeEmployeeData t s) = empField f t) := by
  constructor
  · intro hp hs
    have ht := isEmpty_of_placeholderSpec hp
    cases f <;>
      simp [empField, mergeEmployeeData, mergeFieldVal, ht, hs] at *
  · intro ht hp
    have hs := isEmpty_of_placeholderSpec hp
    cases f <;>
      simp [empField, mergeEmployeeData, mergeFieldVal, ht, hs] at *

/-- Witness for C10 at a concrete input: a placeholder target email is
replaced by a genuine source email. -/
theorem mergeEmployeeData_placeholder_witness :
    placeholderSpec "n/a" = true ∧ isEmpty "jane@acme.com" = false ∧
    ({ emp0 with email := "n/a" } |> fun t =>
      empField .email (mergeEmployeeData t { emp0 with email := "jane@acme.com" })) =
      "jane@acme.com" :=
  ⟨by decide, by decide,
    (mergeEmployeeData_placeholder { emp0 with email := "n/a" }
      { emp0 with email := "jane@acme.com" } .email).1 (by decide) (by decide)⟩

/-- Helper: `dropWhile` is the identity when no element satisfies `p`. -/
theorem dropWhile_eq_self_of {α : Type} (p : α → Bool) (l : List α)
    (h : ∀ c ∈ l, p c = false) : l.dropWhile p = l := by
  cases l with
  | nil => rfl
  | cons a t => simp [List.dropWhile_cons, h a (by simp)]

/-- Helper: trimming a list without whitespace characters is the identity. -/
theorem trimChars_eq_self {l : List Char} (h : ∀ c ∈ l, isWsChar c = false) :
    trimChars l = l := by
  unfold trimChars
  rw [dropWhile_eq_self_of _ _ h, dropWhile_eq_self_of, List.reverse_reverse]
  intro c hc
  exact h c (List.mem_reverse.mp hc)

/-- Helper: lowercasing a list of already-lowercase characters is the identity. -/
theorem map_toLower_eq_self {l : List Char} (h : ∀ c ∈ l, Char.toLower c = c) :
    l.map Char.toLower = l := by
  induction l with
  | nil => rfl
  | cons a t ih =>
    simp only [List.map_cons, h a (by simp), List.cons.injEq, true_and]
    exact ih fun c hc => h c (by simp [hc])

/-- Helper: trim and lowercase fix a string of fixed characters. -/
theorem jsTrim_jsLower_fixed {u : String}
    (hfix : ∀ c ∈ u.data, isWsChar c = false ∧ Char.toLower c = c) :
    jsTrim (jsLower u) = u := by
  unfold jsTrim jsLower
  rw [show (String.mk (u.data.map Char.toLower)).data = u.data.map Char.toLower from rfl,
    map_toLower_eq_self (fun c hc => (hfix c hc).2),
    trimChars_eq_self (fun c hc => (hfix c hc).1)]

/-- Helper: slug characters are non-whitespace and lowercase-stable. -/
theorem slugChar_fixed {c : Char} (h : isSlugChar c = true) :
    isWsChar c = false ∧ Char.toLower c = c := by
  simp only [isSlugChar, Bool.and_eq_true, decide_eq_true_eq] at h
  constructor
  · simp only [isWsChar, Bool.or_eq_false_iff, decide_eq_false_iff_not]
    refine ⟨⟨⟨⟨⟨?_, ?_⟩, ?_⟩, ?_⟩, ?_⟩, ?_⟩ <;> (rintro rfl; simp_all)
  · simp only [Char.toLower]
    rw [if_neg]
    omega

/-- Helper: a character with `isSlugChar` false is not in a slug. -/
theorem slug_not_mem {s : String} (hs : slugOk s) {c : Char}
    (hc : isSlugChar c = false) : c ∉ s.data := by
  intro hmem
  rw [hs.2 c hmem] at hc
  cases hc

/-- Helper: membership transfer along `List.isPrefixOf`. -/
theorem mem_of_isPrefixOf {p m : List Char} (h : p.isPrefixOf m = true) :
    ∀ c ∈ p, c ∈ m := by
  induction p generalizing m with
  | nil => simp
  | cons a as ih =>
    cases m with
    | nil => simp [List.isPrefixOf] at h
    | cons b bs =>
      simp only [List.isPrefixOf, Bool.and_eq_true, beq_iff_eq] at h
      intro c hc
      rcases List.mem_cons.mp hc with rfl | hc
      · simp [h.1]
      · exact List.mem_cons_of_mem _ (ih h.2 c hc)

/-- Helper: membership transfer along `isInfixB`. -/
theorem mem_of_isInfixB {pat l : List Char} (h : isInfixB pat l = true) :
    ∀ c ∈ pat, c ∈ l := by
  induction l with
  | nil =>
    simp only [isInfixB, List.isEmpty_iff] at h
    simp [h]
  | cons a rest ih =>
    simp only [isInfixB, Bool.or_eq_true] at h
    rcases h with h | h
    · exact mem_of_isPrefixOf h
    · exact fun c hc => List.mem_cons_of_mem _ (ih h c hc)

/-- Helper: a list is a Boolean prefix of itself followed by anything. -/
theorem isPrefixOf_append_self (p t : List Char) : p.isPrefixOf (p ++ t) = true := by
  induction p with
  | nil => simp [List.isPrefixOf]
  | cons a as ih => simp [List.isPrefixOf, ih]

/-- Helper: a clash within the common range rules out the prefix relation,
whatever follows. -/
theorem isPrefixOf_append_false {p q : List Char} (t : List Char)
    (h : clashB p q = true) : p.isPrefixOf (q ++ t) = false := by
  induction p generalizing q with
  | nil => simp [clashB] at h
  | cons a as ih =>
    cases q with
    | nil => simp [clashB] at h
    | cons b bs =>
      simp only [clashB, Bool.or_eq_true, bne_iff_ne] at h
      rcases h with h | h
      · simp [List.isPrefixOf, h]
      · simp [List.isPrefixOf, ih h]

/-- Helper: `removeFirstAny` is the identity when every pattern has a
character missing from the list. -/
theorem removeFirstAny_no_occ {pats : List (List Char)} {l : List Char}
    (h : ∀ p ∈ pats, ∃ c, c ∈ p ∧ c ∉ l) : removeFirstAny pats l = l := by
  induction l with
  | nil => rfl
  | cons a rest ih =>
    unfold removeFirstAny
    have hfind : pats.find? (fun p => p.isPrefixOf (a :: rest)) = none := by
      apply List.find?_eq_none.mpr
      intro p hp
      rcases h p hp with ⟨c, hcp, hcl⟩
      simp only [Bool.not_eq_true]
      cases hpre : p.isPrefixOf (a :: rest)
      · rfl
      · exact absurd (mem_of_isPrefixOf hpre c hcp) hcl
    rw [hfind]
    have := ih (fun p hp => by
      rcases h p hp with ⟨c, hcp, hcl⟩
      exact ⟨c, hcp, fun hc => hcl (List.mem_cons_of_mem _ hc)⟩)
    rw [this]

/-- Helper: `removeFirstAny` on a non-empty list whose matcher finds `p`
drops exactly `p`'s length. -/
theorem removeFirstAny_found {pats : List (List Char)} {l p : List Char}
    (hfind : pats.find? (fun q => q.isPrefixOf l) = some p) (hl : l ≠ []) :
    removeFirstAny pats l = l.drop p.length := by
  cases l with
  | nil => cases hl rfl
  | cons c rest =>
    unfold removeFirstAny
    rw [hfind]

/-- Helper: last element of a list is a member. -/
theorem getLast?_mem_self {l : List Char} {a : Char} (h : l.getLast? = some a) :
    a ∈ l := by
  rcases List.mem_getLast?_eq_getLast h with ⟨hne, rfl⟩
  exact List.getLast_mem hne

/-- Helper: `dropSlashEnd` is the identity without a trailing slash. -/
theorem dropSlashEnd_no_slash {l : List Char} (h : l.getLast? ≠ some '/') :
    dropSlashEnd l = l := by
  unfold dropSlashEnd
  simp [h]

/-- Helper: `dropSlashEnd` removes exactly one appended slash. -/
theorem dropSlashEnd_concat_slash (l : List Char) :
    dropSlashEnd (l ++ ['/']) = l := by
  unfold dropSlashEnd
  simp [List.getLast?_concat, List.dropLast_concat]

/-- Helper: head of an append is the head of a non-empty left part. -/
theorem head?_append_left {l₁ l₂ : List Char} {a : Char} (h : l₁.head? = some a) :
    (l₁ ++ l₂).head? = some a := by
  cases l₁ with
  | nil => simp at h
  | cons c t => simpa using h

/-- Helper: the head of a string of a known token rules out other heads. -/
theorem head_tok_absurd {l : List Char} {tok : String} (e : String.mk l = tok)
    (hh : l.head? = some 'h' ∨ l.head? = some 'l')
    (htok : tok.data.head? ≠ some 'h' ∧ tok.data.head? ≠ some 'l') : False := by
  have hd : l = tok.data := congrArg String.data e
  subst hd
  rcases hh with h | h
  · exact htok.1 h
  · exact htok.2 h

/-- Helper: a string of fixed characters starting with `h` or `l` is not
empty in the source's sense (no placeholder token starts that way, and
the containment tokens contain a space). -/
theorem isEmpty_false_of_head {l : List Char}
    (hh : l.head? = some 'h' ∨ l.head? = some 'l')
    (hfix : ∀ c ∈ l, isWsChar c = false ∧ Char.toLower c = c) :
    isEmpty (String.mk l) = false := by
  have h1 : jsTrim (String.mk l) = String.mk l := by
    unfold jsTrim
    rw [show (String.mk l).data = l from rfl,
      trimChars_eq_self (fun c hc => (hfix c hc).1)]
  have h2 : jsLower (String.mk l) = String.mk l := by
    unfold jsLower
    rw [show (String.mk l).data = l from rfl,
      map_toLower_eq_self (fun c hc => (hfix c hc).2)]
  have hsp : ' ' ∉ l := fun hm => absurd (hfix ' ' hm).1 (by decide)
  rw [Bool.eq_false_iff]
  intro hcon
  unfold isEmpty at hcon
  rw [h1, h2] at hcon
  simp only [Bool.or_eq_true, decide_eq_true_eq] at hcon
  rcases hcon with (((((((e | e) | e) | e) | e) | e) | e) | hc) | hc
  · exact head_tok_absurd e hh (by decide)
  · exact head_tok_absurd e hh (by decide)
  · exact head_tok_absurd e hh (by decide)
  · exact head_tok_absurd e hh (by decide)
  · exact head_tok_absurd e hh (by decide)
  · exact head_tok_absurd e hh (by decide)
  · exact head_tok_absurd e hh (by decide)
  · exact hsp (mem_of_isInfixB hc ' ' (by decide))
  · exact hsp (mem_of_isInfixB hc ' ' (by decide))

/-- Helper: appending a slug never ends in a slash. -/
theorem getLast?_append_no_slash {s : String} (hs : slugOk s) (q : List Char) :
    (q ++ s.data).getLast? ≠ some '/' := by
  intro h
  rw [List.getLast?_append] at h
  rcases e : s.data.getLast? with _ | a
  · exact hs.1 (List.getLast?_eq_none_iff.mp e)
  · rw [e] at h
    simp only [Option.or_some, Option.some.injEq] at h
    subst h
    exact slug_not_mem hs (by decide) (getLast?_mem_self e)

/-- Helper: both replace stages leave a bare slug unchanged. -/
theorem removeStages_slug {s : String} (hs : slugOk s) :
    removeFirstAny ["linkedin.com/in/".data]
      (removeFirstAny linkedinProtoPats s.data) = s.data := by
  have hinner : removeFirstAny linkedinProtoPats s.data = s.data := by
    apply removeFirstAny_no_occ
    intro p hp
    fin_cases hp <;> exact ⟨':', by decide, slug_not_mem hs (by decide)⟩
  rw [hinner]
  apply removeFirstAny_no_occ
  intro p hp
  fin_cases hp
  exact ⟨'.', by decide, slug_not_mem hs (by decide)⟩

/-- Helper: the two replace stages strip a URL-form path prefix from a
slug, leaving the bare slug. -/
theorem removeStages_concat {pre s : String} (hpre : pre ∈ linkedinUrlForms)
    (hs : slugOk s) :
    removeFirstAny ["linkedin.com/in/".data]
      (removeFirstAny linkedinProtoPats (pre.data ++ s.data)) = s.data := by
  have houter : removeFirstAny ["linkedin.com/in/".data] s.data = s.data := by
    apply removeFirstAny_no_occ
    intro p hp
    fin_cases hp
    exact ⟨'.', by decide, slug_not_mem hs (by decide)⟩
  fin_cases hpre
  · have hinner : removeFirstAny linkedinProtoPats
        ("linkedin.com/in/".data ++ s.data) = "linkedin.com/in/".data ++ s.data := by
      apply removeFirstAny_no_occ
      intro p hp
      have hmem : (':' : Char) ∈ p := by fin_cases hp <;> decide
      refine ⟨':', hmem, fun hm => ?_⟩
      rcases List.mem_append.mp hm with h | h
      · exact absurd h (by decide)
      · exact slug_not_mem hs (by decide) h
    rw [hinner]
    have hfind : (["linkedin.com/in/".data]).find?
        (fun q => q.isPrefixOf ("linkedin.com/in/".data ++ s.data)) =
        some ("linkedin.com/in/".data) :=
      List.find?_cons_of_pos _ (isPrefixOf_append_self _ _)
    rw [removeFirstAny_found hfind
      (List.append_ne_nil_of_left_ne_nil (by decide) _), List.drop_left]
  · have hfind : linkedinProtoPats.find?
        (fun q => q.isPrefixOf ("http://linkedin.com/in/".data ++ s.data)) =
        some ("http://linkedin.com/in/".data) := by
      have e1 := isPrefixOf_append_false (p := "https://linkedin.com/in/".data)
        (q := "http://linkedin.com/in/".data) s.data (by decide)
      have e2 := isPrefixOf_append_false (p := "https://www.linkedin.com/in/".data)
        (q := "http://linkedin.com/in/".data) s.data (by decide)
      unfold linkedinProtoPats
      rw [List.find?_cons_of_neg _ (by simp only [e1]; exact Bool.false_ne_true),
        List.find?_cons_of_neg _ (by simp only [e2]; exact Bool.false_ne_true)]
      exact List.find?_cons_of_pos _ (isPrefixOf_append_self _ _)
    rw [removeFirstAny_found hfind
      (List.append_ne_nil_of_left_ne_nil (by decide) _), List.drop_left, houter]
  · have hfind : linkedinProtoPats.find?
        (fun q => q.isPrefixOf ("https://linkedin.com/in/".data ++ s.data)) =
        some ("https://linkedin.com/in/".data) := by
      unfold linkedinProtoPats
      exact List.find?_cons_of_pos _ (isPrefixOf_append_self _ _)
    rw [removeFirstAny_found hfind
      (List.append_ne_nil_of_left_ne_nil (by decide) _), List.drop_left, houter]
  · have hfind : linkedinProtoPats.find?
        (fun q => q.isPrefixOf ("http://www.linkedin.com/in/".data ++ s.data)) =
        some ("http://www.linkedin.com/in/".data) := by
      have e1 := isPrefixOf_append_false (p := "https://linkedin.com/in/".data)
        (q := "http://www.linkedin.com/in/".data) s.data (by decide)
      have e2 := isPrefixOf_append_false (p := "https://www.linkedin.com/in/".data)
        (q := "http://www.linkedin.com/in/".data) s.data (by decide)
      have e3 := isPrefixOf_append_false (p := "http://linkedin.com/in/".data)
        (q := "http://www.linkedin.com/in/".data) s.data (by decide)
      unfold linkedinProtoPats
      rw [List.find?_cons_of_neg _ (by simp only [e1]; exact Bool.false_ne_true),
        List.find?_cons_of_neg _ (by simp only [e2]; exact Bool.false_ne_true),
        List.find?_cons_of_neg _ (by simp only [e3]; exact Bool.false_ne_true)]
      exact List.find?_cons_of_pos _ (isPrefixOf_append_self _ _)
    rw [removeFirstAny_found hfind
      (List.append_ne_nil_of_left_ne_nil (by decide) _), List.drop_left, houter]
  · have hfind : linkedinProtoPats.find?
        (fun q => q.isPrefixOf ("https://www.linkedin.com/in/".data ++ s.data)) =
        some ("https://www.linkedin.com/in/".data) := by
      have e1 := isPrefixOf_append_false (p := "https://linkedin.com/in/".data)
        (q := "https://www.linkedin.com/in/".data) s.data (by decide)
      unfold linkedinProtoPats
      rw [List.find?_cons_of_neg _ (by simp only [e1]; exact Bool.false_ne_true)]
      exact List.find?_cons_of_pos _ (isPrefixOf_append_self _ _)
    rw [removeFirstAny_found hfind
      (List.append_ne_nil_of_left_ne_nil (by decide) _), List.drop_left, houter]

/-- Helper: normalization of a slug prefixed by one of the URL forms,
with and without a trailing slash. -/
theorem normalizeLinkedIn_concat_form {pre s : String}
    (hpre : pre ∈ linkedinUrlForms) (hs : slugOk s)
    (hh : pre.data.head? = some 'h' ∨ pre.data.head? = some 'l')
    (hfixp : ∀ c ∈ pre.data, isWsChar c = false ∧ Char.toLower c = c) :
    normalizeLinkedIn (pre ++ s) = s ∧ normalizeLinkedIn (pre ++ s ++ "/") = s := by
  have hfixs : ∀ c ∈ s.data, isWsChar c = false ∧ Char.toLower c = c :=
    fun c hc => slugChar_fixed (hs.2 c hc)
  have hfix1 : ∀ c ∈ (pre ++ s).data, isWsChar c = false ∧ Char.toLower c = c := by
    rw [String.data_append]
    intro c hc
    rcases List.mem_append.mp hc with h | h
    · exact hfixp c h
    · exact hfixs c h
  have hfix2 : ∀ c ∈ (pre ++ s ++ "/").data,
      isWsChar c = false ∧ Char.toLower c = c := by
    rw [String.data_append]
    intro c hc
    rcases List.mem_append.mp hc with h | h
    · exact hfix1 c h
    · rw [show ("/" : String).data = ['/'] from rfl] at h
      rcases List.mem_singleton.mp h with rfl
      exact ⟨by decide, by decide⟩
  have hh1 : ((pre ++ s).data).head? = some 'h' ∨ ((pre ++ s).data).head? = some 'l' := by
    rw [String.data_append]
    rcases hh with h | h
    · exact Or.inl (head?_append_left h)
    · exact Or.inr (head?_append_left h)
  have hemp1 : isEmpty (pre ++ s) = false := isEmpty_false_of_head hh1 hfix1
  have hh2 : ((pre ++ s ++ "/").data).head? = some 'h' ∨
      ((pre ++ s ++ "/").data).head? = some 'l' := by
    rw [String.data_append]
    rcases hh1 with h | h
    · exact Or.inl (head?_append_left h)
    · exact Or.inr (head?_append_left h)
  have hemp2 : isEmpty (pre ++ s ++ "/") = false := isEmpty_false_of_head hh2 hfix2
  constructor
  · simp only [normalizeLinkedIn, hemp1, Bool.false_eq_true, if_false]
    rw [jsTrim_jsLower_fixed hfix1, String.data_append,
      dropSlashEnd_no_slash (getLast?_append_no_slash hs _),
      removeStages_concat hpre hs]
  · simp only [normalizeLinkedIn, hemp2, Bool.false_eq_true, if_false]
    rw [jsTrim_jsLower_fixed hfix2, String.data_append, String.data_append,
      show ("/" : String).data = ['/'] from rfl, dropSlashEnd_concat_slash,
      removeStages_concat hpre hs]

/-- C8 amended: LinkedIn normalization maps a lowercase-letter profile
slug (that is not itself a placeholder token) and each of its URL forms
that carry the literal `linkedin.com/in/` path — bare or preceded by
`http://`, `https://`, `http://www.`, or `https://www.`, optionally with
a trailing slash — to the bare slug; `www.` without a protocol is *not*
stripped (see the counterexample).  Two employees whose non-empty
LinkedIn values normalize to the same non-empty identifier satisfy
matcher test 3. -/
theorem normalizeLinkedIn_amended :
    (∀ s : String, slugOk s → isEmpty s = false →
      normalizeLinkedIn s = s ∧
      ∀ pre ∈ linkedinUrlForms,
        normalizeLinkedIn (pre ++ s) = s ∧ normalizeLinkedIn (pre ++ s ++ "/") = s) ∧
    (∀ a b : Employee, isEmpty a.linkedin = false → isEmpty b.linkedin = false →
      normalizeLinkedIn a.linkedin ≠ "" →
      normalizeLinkedIn a.linkedin = normalizeLinkedIn b.linkedin →
      empMatches a b = true) := by
  constructor
  · intro s hs hemp
    have hfixs : ∀ c ∈ s.data, isWsChar c = false ∧ Char.toLower c = c :=
      fun c hc => slugChar_fixed (hs.2 c hc)
    constructor
    · simp only [normalizeLinkedIn, hemp, Bool.false_eq_true, if_false]
      rw [jsTrim_jsLower_fixed hfixs]
      rw [dropSlashEnd_no_slash (fun h => slug_not_mem hs (by decide) (getLast?_mem_self h)),
        removeStages_slug hs]
    · intro pre hpre
      have hh : pre.data.head? = some 'h' ∨ pre.data.head? = some 'l' := by
        fin_cases hpre
        · exact Or.inr rfl
        · exact Or.inl rfl
        · exact Or.inl rfl
        · exact Or.inl rfl
        · exact Or.inl rfl
      have hfixp : ∀ c ∈ pre.data, isWsChar c = false ∧ Char.toLower c = c := by
        fin_cases hpre <;> decide
      exact normalizeLinkedIn_concat_form hpre hs hh hfixp
  · intro a b h1 h2 h3 h4
    have hc : (!isEmpty a.linkedin && !isEmpty b.linkedin &&
        (normalizeLinkedIn a.linkedin != "" &&
          (normalizeLinkedIn a.linkedin == normalizeLinkedIn b.linkedin))) = true := by
      have hb1 : (!isEmpty a.linkedin) = true := by rw [h1]; rfl
      have hb2 : (!isEmpty b.linkedin) = true := by rw [h2]; rfl
      have hb3 : (normalizeLinkedIn a.linkedin != "") = true := bne_iff_ne.mpr h3
      have hb4 : (normalizeLinkedIn a.linkedin == normalizeLinkedIn b.linkedin) = true :=
        beq_iff_eq.mpr h4
      rw [hb1, hb2, hb3, hb4]
      rfl
    simp only [empMatches]
    exact Bool.or_eq_true_iff.mpr (Or.inl (Bool.or_eq_true_iff.mpr (Or.inr hc)))

/-- Witness for C8 amended at concrete inputs: the slug `john`, its
`https://www.` URL form, and two employees matching through test 3. -/
theorem normalizeLinkedIn_amended_witness :
    slugOk "john" ∧ isEmpty "john" = false ∧
    normalizeLinkedIn ("https://www.linkedin.com/in/" ++ "john") = "john" ∧
    empMatches { emp0 with linkedin := "john" }
      { emp0 with linkedin := "linkedin.com/in/john" } = true := by
  have h1 : slugOk "john" := ⟨by decide, by decide⟩
  refine ⟨h1, by decide, ?_, ?_⟩
  · exact ((normalizeLinkedIn_amended.1 "john" h1 (by decide)).2
      "https://www.linkedin.com/in/" (by decide)).1
  · exact normalizeLinkedIn_amended.2 _ _ (by decide) (by decide) (by decide) (by decide)

/-- C8 counterexample: `www.linkedin.com/in/john` (prefixed URL form
with `www.` but without protocol) does not normalize to the bare slug
`john`; the two records therefore do not satisfy matcher test 3 (nor
any other test). -/
theorem normalizeLinkedIn_www_counterexample :
    normalizeLinkedIn "www.linkedin.com/in/john" = "www.john" ∧
    normalizeLinkedIn "john" = "john" ∧
    normalizeLinkedIn "www.linkedin.com/in/john" ≠ normalizeLinkedIn "john" ∧
    findMatchingEmployee [{ emp0 with linkedin := "www.linkedin.com/in/john" }]
      { emp0 with linkedin := "john" } = none := by
  refine ⟨by decide, by decide, by decide, by decide⟩

/-- Helper: a pushed employee lands at the pushed key. -/
theorem lookupEmps_mapPushEmp_same {m : List (String × Company)} {k : String}
    {e : Employee} (h : mapHasKey m k = true) :
    lookupEmps (mapPushEmp m k e) k = lookupEmps m k ++ [e] := by
  induction m with
  | nil => simp [mapHasKey] at h
  | cons p rest ih =>
    simp only [mapHasKey, List.any_cons, Bool.or_eq_true] at h
    by_cases hp : (p.1 == k) = true
    · simp [mapPushEmp, hp, lookupEmps, List.find?]
    · have h' : mapHasKey rest k = true := by
        rcases h with h | h
        · exact absurd h hp
        · simpa [mapHasKey] using h
      simp only [mapPushEmp, hp, if_false, Bool.false_eq_true]
      simp only [lookupEmps, List.find?, hp]
      exact ih h'

/-- Helper: pushing at one key leaves every other key's employees. -/
theorem lookupEmps_mapPushEmp_ne {m : List (String × Company)} {k k' : String}
    {e : Employee} (hne : (k == k') = false) :
    lookupEmps (mapPushEmp m k e) k' = lookupEmps m k' := by
  induction m with
  | nil => rfl
  | cons p rest ih =>
    by_cases hp : (p.1 == k) = true
    · have hp' : (p.1 == k') = false := by
        rw [beq_iff_eq] at hp
        rw [hp]
        exact hne
      simp [mapPushEmp, hp, lookupEmps, List.find?, hp']
    · simp only [mapPushEmp, hp, if_false, Bool.false_eq_true]
      simp only [lookupEmps, List.find?]
      cases hq : (p.1 == k')
      · simp only [hq]
        exact ih
      · simp [hq]

/-- Helper: a key absent from the map has no employees. -/
theorem lookupEmps_of_not_has {m : List (String × Company)} {k : String}
    (h : mapHasKey m k = false) : lookupEmps m k = [] := by
  induction m with
  | nil => rfl
  | cons p rest ih =>
    simp only [mapHasKey, List.any_cons, Bool.or_eq_false_iff] at h
    simp only [lookupEmps, List.find?, h.1]
    exact ih (by simpa [mapHasKey] using h.2)

/-- Helper: looking up a freshly appended entry. -/
theorem lookupEmps_append_self {m : List (String × Company)} {k : String}
    {c : Company} (h : mapHasKey m k = false) :
    lookupEmps (m ++ [(k, c)]) k = c.employees := by
  induction m with
  | nil => simp [lookupEmps, List.find?]
  | cons p rest ih =>
    simp only [mapHasKey, List.any_cons, Bool.or_eq_false_iff] at h
    simp only [List.cons_append, lookupEmps, List.find?, h.1]
    exact ih (by simpa [mapHasKey] using h.2)

/-- Helper: appending an entry leaves every other key's employees. -/
theorem lookupEmps_append_ne {m : List (String × Company)} {k k' : String}
    {c : Company} (hne : (k == k') = false) :
    lookupEmps (m ++ [(k, c)]) k' = lookupEmps m k' := by
  induction m with
  | nil => simp [lookupEmps, List.find?, hne]
  | cons p rest ih =>
    simp only [List.cons_append, lookupEmps, List.find?]
    cases hq : (p.1 == k')
    · simp only [hq]
      exact ih
    · simp [hq]

/-- Helper: an appended entry makes its key present. -/
theorem mapHasKey_append_self (m : List (String × Company)) (k : String)
    (c : Company) : mapHasKey (m ++ [(k, c)]) k = true := by
  simp [mapHasKey, List.any_append]

/-- Helper: one CSV row changes exactly its own grouping key's employee
list, appending the row's employee iff the row qualifies. -/
theorem csvStep_lookup (hs : List Header) (st : List (String × Company) × Nat)
    (row : String) (k : String) :
    (lookupEmps (csvStep hs st row).1 k).map empCore =
      (lookupEmps st.1 k).map empCore ++
      (if csvRowKey hs row == k && csvRowQualifies hs row then
        [csvRowEmpCore hs row] else []) := by
  simp only [csvStep, csvRowKey, csvRowQualifies, csvRowEmpCore]
  set vs := parseLine row with hvs
  set ed := rowFieldsBy hs vs HType.employee with hed
  set cd := rowFieldsBy hs vs HType.company with hcd
  set rc := rowFieldsAll hs vs with hrc
  set K := companyKeyOf (jsOr (cd "domain") (jsOr (cd "name") (jsOr (rc "name") "N/A")))
    with hkdef
  cases hq : (ed "firstName" != "" || ed "lastName" != "")
  · cases hhas : mapHasKey st.1 K
    · cases hk : (K == k)
      · simp only [hq, hhas, hk, Bool.false_eq_true, if_false, Bool.and_false,
          List.append_nil]
        rw [lookupEmps_append_ne hk]
      · simp only [hq, hhas, hk, Bool.false_eq_true, if_false, Bool.and_false,
          List.append_nil]
        rw [beq_iff_eq] at hk
        subst hk
        rw [lookupEmps_append_self hhas, lookupEmps_of_not_has hhas]
    · simp [hq, hhas]
  · cases hhas : mapHasKey st.1 K
    · cases hk : (K == k)
      · simp only [hq, hhas, hk, Bool.false_eq_true, if_false, if_true,
          Bool.false_and, List.append_nil]
        rw [lookupEmps_mapPushEmp_ne hk, lookupEmps_append_ne hk]
      · simp only [hq, hhas, hk, Bool.false_eq_true, if_false, if_true,
          Bool.true_and, Bool.and_self]
        rw [beq_iff_eq] at hk
        subst hk
        rw [lookupEmps_mapPushEmp_same (mapHasKey_append_self _ _ _),
          lookupEmps_append_self hhas, lookupEmps_of_not_has hhas]
        simp [empCore]
    · cases hk : (K == k)
      · simp only [hq, hhas, hk, Bool.false_eq_true, if_true, Bool.false_and,
          List.append_nil]
        rw [lookupEmps_mapPushEmp_ne hk]
        simp
      · simp only [hq, hhas, hk, if_true, Bool.true_and, Bool.and_self]
        rw [beq_iff_eq] at hk
        subst hk
        rw [lookupEmps_mapPushEmp_same hhas]
        simp [empCore]

/-- Helper: folding the CSV rows accumulates, per grouping key, exactly
the employees of the qualifying rows with that key, in row order. -/
theorem csvFold_lookup (hs : List Header) (rows : List String) :
    ∀ (st : List (String × Company) × Nat) (k : String),
    (lookupEmps ((rows.foldl (csvStep hs) st).1) k).map empCore =
      (lookupEmps st.1 k).map empCore ++
      (rows.filter (fun r => csvRowKey hs r == k && csvRowQualifies hs r)).map
        (csvRowEmpCore hs) := by
  induction rows with
  | nil => intro st k; simp
  | cons r rest ih =>
    intro st k
    simp only [List.foldl_cons, List.filter_cons]
    rw [ih, csvStep_lookup]
    cases hcond : (csvRowKey hs r == k && csvRowQualifies hs r) <;>
      simp [hcond, List.append_assoc]

/-- Helper: property access on an object never throws and reads the
first matching field. -/
theorem getProp_obj (l : List (String × JVal)) (k : String) :
    getProp (.obj l) k = .ok (lookupJ l k) := rfl

/-- Helper: property access on a string row reads `strLookup`. -/
theorem getProp_strObj (r : List (String × String)) (k : String) :
    getProp (strObj r) k = .ok (strLookup r k) := by
  rw [strObj, getProp_obj, lookupJ, List.find?_map]
  rcases h : r.find? (fun p => p.1 == k) with _ | p <;>
    simp [Function.comp_def, h, strLookup]

/-- Helper: `normalizeRecord` on a string row computes its pure
counterpart, never throwing. -/
theorem normalizeRecord_strObj (r : List (String × String))
    (m : List (String × String)) :
    normalizeRecord (strObj r) m = .ok (strRecJ r m) := by
  have go : ∀ (ms : List (String × String)) (acc : List (String × JVal)),
      List.foldlM
        (fun acc entry => do
          let vOrig ← getProp (strObj r) entry.1
          if !isUndefined vOrig then
            pure (acc ++ [(entry.2, vOrig)])
          else
            let vMapped ← getProp (strObj r) entry.2
            if !isUndefined vMapped then pure (acc ++ [(entry.2, vMapped)])
            else pure acc)
        acc ms = .ok (acc ++ strRecJ r ms) := by
    intro ms
    induction ms with
    | nil => intro acc; simp [strRecJ, normRecPureS]; rfl
    | cons entry rest ih =>
      intro acc
      rw [List.foldlM_cons]
      rcases h1 : r.find? (fun p => p.1 == entry.1) with _ | p1
      · rcases h2 : r.find? (fun p => p.1 == entry.2) with _ | p2 <;>
          simp only [getProp_strObj, Bind.bind, Except.bind, strLookup, h1, h2,
            isUndefined, Bool.not_true, Bool.not_false, Bool.false_eq_true, if_false,
            if_true, pure, Except.pure] at ih ⊢ <;>
          rw [ih] <;>
          simp [strRecJ, normRecPureS, h1, h2]
      · simp only [getProp_strObj, Bind.bind, Except.bind, strLookup, h1,
          isUndefined, Bool.not_true, Bool.not_false, Bool.false_eq_true, if_false,
          if_true, pure, Except.pure] at ih ⊢
        rw [ih]
        simp [strRecJ, normRecPureS, h1]
  rw [normalizeRecord, go]
  simp

/-- Helper: a value is an honest string. -/
def isStrP (v : JVal) : Prop := ∃ s, v = .str s

/-- Helper: a value is a string or `undefined`. -/
def strOrU (v : JVal) : Prop := isStrP v ∨ v = .undefined

/-- Helper: `strLookup` yields a string or `undefined`. -/
theorem strOrU_strLookup (r : List (String × String)) (k : String) :
    strOrU (strLookup r k) := by
  rw [strLookup]
  rcases h : r.find? (fun p => p.1 == k) with _ | p <;> rw [h]
  · exact Or.inr rfl
  · exact Or.inl ⟨p.2, rfl⟩

/-- Helper: lookup in a normalized string record yields a string or
`undefined`. -/
theorem strOrU_lookupJ_strRecJ (r : List (String × String))
    (m : List (String × String)) (k : String) :
    strOrU (lookupJ (strRecJ r m) k) := by
  rw [lookupJ, strRecJ, List.find?_map]
  rcases h : (normRecPureS r m).find? (fun p => p.1 == k) with _ | p <;>
    simp [Function.comp_def, h]
  · exact Or.inr rfl
  · exact Or.inl ⟨p.2, rfl⟩

/-- Helper: `a || b` is a string when `a` is a string or `undefined`
and `b` is a string. -/
theorem isStrP_jsOrJ {a b : JVal} (ha : strOrU a) (hb : isStrP b) :
    isStrP (jsOrJ a b) := by
  rw [jsOrJ]
  cases ht : jsTruthy a
  · simpa using hb
  · rcases ha with ⟨s, rfl⟩ | rfl
    · exact ⟨s, rfl⟩
    · simp [jsTruthy] at ht

/-- Helper: a string-or-undefined value that is a string is also
string-or-undefined after composition. -/
theorem strOrU_of_isStrP {v : JVal} (h : isStrP v) : strOrU v := Or.inl h

/-- Helper: `.toLowerCase()` succeeds on a string value, producing its
lowercase content. -/
theorem jvalToLower_isStrP {v : JVal} (h : isStrP v) :
    jvalToLower v = .ok (jsLower (u2s v)) := by
  rcases h with ⟨s, rfl⟩
  rfl

/-- Helper: the effective company name of a string row. -/
theorem flatEffName_strObj (r : List (String × String)) :
    flatEffName (strObj r) = .ok (jsonRowName r) := by
  simp only [flatEffName, normalizeRecord_strObj, getProp_strObj, Bind.bind,
    Except.bind, jsonRowName, pure, Except.pure]

/-- Helper: the effective company domain of a string row. -/
theorem flatEffDomain_strObj (r : List (String × String)) :
    flatEffDomain (strObj r) = .ok (jsonRowDomain r) := by
  simp only [flatEffDomain, normalizeRecord_strObj, getProp_strObj, Bind.bind,
    Except.bind, jsonRowDomain, pure, Except.pure]

/-- Helper: the grouping key of a string row never throws. -/
theorem flatCompanyKey_strObj (r : List (String × String)) :
    flatCompanyKey (strObj r) = .ok (jsonRowKey r) := by
  have hname : isStrP (jsonRowName r) :=
    isStrP_jsOrJ (strOrU_lookupJ_strRecJ r companyFieldMap "name")
      (isStrP_jsOrJ (strOrU_strLookup r "name")
        (isStrP_jsOrJ (strOrU_strLookup r "Company name") ⟨"N/A", rfl⟩))
  have hdomain : isStrP (jsonRowDomain r) :=
    isStrP_jsOrJ (strOrU_lookupJ_strRecJ r companyFieldMap "domain")
      (isStrP_jsOrJ (strOrU_strLookup r "domain")
        (isStrP_jsOrJ (strOrU_strLookup r "Company domain") ⟨"", rfl⟩))
  have hlow := jvalToLower_isStrP
    (isStrP_jsOrJ (strOrU_of_isStrP hdomain) hname)
  simp only [flatCompanyKey, flatEffDomain_strObj, flatEffName_strObj, Bind.bind,
    Except.bind, hlow, jsonRowKey, pure, Except.pure]

/-- Helper: the company created for a string row. -/
theorem flatNewCompany_strObj (n : Nat) (r : List (String × String)) :
    flatNewCompany n (strObj r) = .ok (newCompanyJ n r) := by
  simp only [flatNewCompany, normalizeRecord_strObj, flatEffName_strObj,
    flatEffDomain_strObj, getProp_strObj, Bind.bind, Except.bind, newCompanyJ,
    pure, Except.pure]

/-- Helper: the effective first name of a string row. -/
theorem flatEffFirst_strObj (r : List (String × String)) :
    flatEffFirst (strObj r) = .ok (jsonRowFirst r) := by
  simp only [flatEffFirst, normalizeRecord_strObj, getProp_strObj, Bind.bind,
    Except.bind, jsonRowFirst, pure, Except.pure]

/-- Helper: the effective last name of a string row. -/
theorem flatEffLast_strObj (r : List (String × String)) :
    flatEffLast (strObj r) = .ok (jsonRowLast r) := by
  simp only [flatEffLast, normalizeRecord_strObj, getProp_strObj, Bind.bind,
    Except.bind, jsonRowLast, pure, Except.pure]

/-- Helper: the employee pushed for a string row. -/
theorem flatNewEmployee_strObj (n : Nat) (r : List (String × String)) :
    flatNewEmployee n (strObj r) = .ok (jsonRowEmp n r) := by
  simp only [flatNewEmployee, normalizeRecord_strObj, flatEffFirst_strObj,
    flatEffLast_strObj, getProp_strObj, Bind.bind, Except.bind, jsonRowEmp,
    jsonRowEmpCore, pure, Except.pure]

/-- Helper: `flatStep` on a string row never throws and computes its
pure counterpart. -/
theorem flatStep_strObj (st : List (String × CompanyJ) × Nat)
    (r : List (String × String)) :
    flatStep st (strObj r) = .ok (flatStepPure st r) := by
  simp only [flatStep, flatCompanyKey_strObj, Bind.bind, Except.bind]
  cases hhas : mapHasKeyJ st.1 (jsonRowKey r) <;>
    simp only [hhas, if_true, if_false, Bool.false_eq_true, flatNewCompany_strObj,
      Except.bind, flatEffFirst_strObj, flatEffLast_strObj, pure, Except.pure] <;>
    cases hq : (jsTruthy (jsonRowFirst r) || jsTruthy (jsonRowLast r)) <;>
    simp only [hq, if_true, if_false, Bool.false_eq_true, flatNewEmployee_strObj,
      Except.bind, pure, Except.pure, flatStepPure, jsonRowQualifies, hhas]

/-- Helper: the flat loop on string rows never throws and folds the
pure step. -/
theorem flatSteps_strObj (rows : List (List (String × String))) :
    ∀ st, flatSteps st (rows.map strObj) = .ok (rows.foldl flatStepPure st) := by
  induction rows with
  | nil => intro st; rfl
  | cons r rest ih =>
    intro st
    simp only [List.map_cons, flatSteps, flatStep_strObj, Bind.bind, Except.bind,
      List.foldl_cons]
    exact ih _

/-- Helper: a pushed JSON employee lands at the pushed key. -/
theorem lookupEmpsJ_mapPushEmpJ_same {m : List (String × CompanyJ)} {k : String}
    {e : EmployeeJ} (h : mapHasKeyJ m k = true) :
    lookupEmpsJ (mapPushEmpJ m k e) k = lookupEmpsJ m k ++ [e] := by
  induction m with
  | nil => simp [mapHasKeyJ] at h
  | cons p rest ih =>
    simp only [mapHasKeyJ, List.any_cons, Bool.or_eq_true] at h
    by_cases hp : (p.1 == k) = true
    · simp [mapPushEmpJ, hp, lookupEmpsJ, List.find?]
    · have h' : mapHasKeyJ rest k = true := by
        rcases h with h | h
        · exact absurd h hp
        · simpa [mapHasKeyJ] using h
      simp only [mapPushEmpJ, hp, if_false, Bool.false_eq_true]
      simp only [lookupEmpsJ, List.find?, hp]
      exact ih h'

/-- Helper: pushing at one JSON key leaves every other key's employees. -/
theorem lookupEmpsJ_mapPushEmpJ_ne {m : List (String × CompanyJ)} {k k' : String}
    {e : EmployeeJ} (hne : (k == k') = false) :
    lookupEmpsJ (mapPushEmpJ m k e) k' = lookupEmpsJ m k' := by
  induction m with
  | nil => rfl
  | cons p rest ih =>
    by_cases hp : (p.1 == k) = true
    · have hp' : (p.1 == k') = false := by
        rw [beq_iff_eq] at hp
        rw [hp]
        exact hne
      simp [mapPushEmpJ, hp, lookupEmpsJ, List.find?, hp']
    · simp only [mapPushEmpJ, hp, if_false, Bool.false_eq_true]
      simp only [lookupEmpsJ, List.find?]
      cases hq : (p.1 == k')
      · simp only [hq]
        exact ih
      · simp [hq]

/-- Helper: a key absent from the JSON map has no employees. -/
theorem lookupEmpsJ_of_not_has {m : List (String × CompanyJ)} {k : String}
    (h : mapHasKeyJ m k = false) : lookupEmpsJ m k = [] := by
  induction m with
  | nil => rfl
  | cons p rest ih =>
    simp only [mapHasKeyJ, List.any_cons, Bool.or_eq_false_iff] at h
    simp only [lookupEmpsJ, List.find?, h.1]
    exact ih (by simpa [mapHasKeyJ] using h.2)

/-- Helper: looking up a freshly appended JSON entry. -/
theorem lookupEmpsJ_append_self {m : List (String × CompanyJ)} {k : String}
    {c : CompanyJ} (h : mapHasKeyJ m k = false) :
    lookupEmpsJ (m ++ [(k, c)]) k = c.employees := by
  induction m with
  | nil => simp [lookupEmpsJ, List.find?]
  | cons p rest ih =>
    simp only [mapHasKeyJ, List.any_cons, Bool.or_eq_false_iff] at h
    simp only [List.cons_append, lookupEmpsJ, List.find?, h.1]
    exact ih (by simpa [mapHasKeyJ] using h.2)

/-- Helper: appending a JSON entry leaves every other key's employees. -/
theorem lookupEmpsJ_append_ne {m : List (String × CompanyJ)} {k k' : String}
    {c : CompanyJ} (hne : (k == k') = false) :
    lookupEmpsJ (m ++ [(k, c)]) k' = lookupEmpsJ m k' := by
  induction m with
  | nil => simp [lookupEmpsJ, List.find?, hne]
  | cons p rest ih =>
    simp only [List.cons_append, lookupEmpsJ, List.find?]
    cases hq : (p.1 == k')
    · simp only [hq]
      exact ih
    · simp [hq]

/-- Helper: an appended JSON entry makes its key present. -/
theorem mapHasKeyJ_append_self (m : List (String × CompanyJ)) (k : String)
    (c : CompanyJ) : mapHasKeyJ (m ++ [(k, c)]) k = true := by
  simp [mapHasKeyJ, List.any_append]

/-- Helper: the id-blanked pushed employee is the row's core employee. -/
theorem empCoreJ_jsonRowEmp (n : Nat) (r : List (String × String)) :
    empCoreJ (jsonRowEmp n r) = jsonRowEmpCore r := rfl

/-- Helper: one flat string row changes exactly its own grouping key's
employee list, appending the row's employee iff the row qualifies. -/
theorem flatStepPure_lookup (st : List (String × CompanyJ) × Nat)
    (r : List (String × String)) (k : String) :
    (lookupEmpsJ (flatStepPure st r).1 k).map empCoreJ =
      (lookupEmpsJ st.1 k).map empCoreJ ++
      (if jsonRowKey r == k && jsonRowQualifies r then [jsonRowEmpCore r] else []) := by
  simp only [flatStepPure]
  cases hq : jsonRowQualifies r
  · cases hhas : mapHasKeyJ st.1 (jsonRowKey r)
    · cases hk : (jsonRowKey r == k)
      · simp only [hq, hhas, hk, Bool.false_eq_true, if_false, Bool.and_false,
          List.append_nil]
        rw [lookupEmpsJ_append_ne hk]
      · simp only [hq, hhas, hk, Bool.false_eq_true, if_false, Bool.and_false,
          List.append_nil]
        rw [beq_iff_eq] at hk
        subst hk
        rw [lookupEmpsJ_append_self hhas, lookupEmpsJ_of_not_has hhas]
        simp [newCompanyJ]
    · simp [hq, hhas]
  · cases hhas : mapHasKeyJ st.1 (jsonRowKey r)
    · cases hk : (jsonRowKey r == k)
      · simp only [hq, hhas, hk, Bool.false_eq_true, if_false, if_true,
          Bool.false_and, List.append_nil]
        rw [lookupEmpsJ_mapPushEmpJ_ne hk, lookupEmpsJ_append_ne hk]
      · simp only [hq, hhas, hk, Bool.false_eq_true, if_false, if_true,
          Bool.true_and, Bool.and_self]
        rw [beq_iff_eq] at hk
        subst hk
        rw [lookupEmpsJ_mapPushEmpJ_same (mapHasKeyJ_append_self _ _ _),
          lookupEmpsJ_append_self hhas, lookupEmpsJ_of_not_has hhas]
        simp [empCoreJ_jsonRowEmp, newCompanyJ]
    · cases hk : (jsonRowKey r == k)
      · simp only [hq, hhas, hk, Bool.false_eq_true, if_true, Bool.false_and,
          List.append_nil]
        rw [lookupEmpsJ_mapPushEmpJ_ne hk]
        simp
      · simp only [hq, hhas, hk, if_true, Bool.true_and, Bool.and_self]
        rw [beq_iff_eq] at hk
        subst hk
        rw [lookupEmpsJ_mapPushEmpJ_same hhas]
        simp [empCoreJ_jsonRowEmp]

/-- Helper: folding the flat string rows accumulates, per grouping key,
exactly the employees of the qualifying rows with that key, in order. -/
theorem flatFold_lookup (rows : List (List (String × String))) :
    ∀ (st : List (String × CompanyJ) × Nat) (k : String),
    (lookupEmpsJ ((rows.foldl flatStepPure st).1) k).map empCoreJ =
      (lookupEmpsJ st.1 k).map empCoreJ ++
      (rows.filter (fun r => jsonRowKey r == k && jsonRowQualifies r)).map
        jsonRowEmpCore := by
  induction rows with
  | nil => intro st k; simp
  | cons r rest ih =>
    intro st k
    simp only [List.foldl_cons, List.filter_cons]
    rw [ih, flatStepPure_lookup]
    cases hcond : (jsonRowKey r == k && jsonRowQualifies r) <;>
      simp [hcond, List.append_assoc]

/-- Helper: a string-or-undefined value is not an array. -/
theorem isArr_of_strOrU {v : JVal} (h : strOrU v) : isArr v = false := by
  rcases h with ⟨s, rfl⟩ | rfl <;> rfl

/-- Helper: a pre-grouped employee from a string row never throws. -/
theorem preGroupedEmp_strObj_ok (n : Nat) (r : List (String × String)) :
    ∃ en, preGroupedEmp n (strObj r) = .ok en := by
  simp only [preGroupedEmp, getProp_strObj, Bind.bind, Except.bind, pure,
    Except.pure]
  exact ⟨_, rfl⟩

/-- Helper: pre-grouped employees from string rows never throw. -/
theorem preGroupedEmps_strObj_ok (rows : List (List (String × String))) :
    ∀ n, ∃ rn, preGroupedEmps n (rows.map strObj) = .ok rn := by
  induction rows with
  | nil => intro n; exact ⟨_, rfl⟩
  | cons r rest ih =>
    intro n
    obtain ⟨en, hen⟩ := preGroupedEmp_strObj_ok n r
    obtain ⟨rn, hrn⟩ := ih en.2
    exact ⟨(en.1 :: rn.1, rn.2), by
      simp only [List.map_cons, preGroupedEmps, hen, Bind.bind, Except.bind,
        hrn, pure, Except.pure]⟩

/-- Helper: reading `employees` off a pre-grouped string company, when
no scalar field shadows the name. -/
theorem lookupJ_strGrouped_employees (flds : List (String × String))
    (emps : List (List (String × String)))
    (h : ∀ p ∈ flds, p.1 ≠ "employees") :
    lookupJ (flds.map (fun p => (p.1, JVal.str p.2)) ++
      [("employees", JVal.arr (emps.map strObj))]) "employees" =
      .arr (emps.map strObj) := by
  rw [lookupJ, List.find?_append]
  have h1 : (flds.map (fun p => (p.1, JVal.str p.2))).find?
      (fun p => p.1 == "employees") = none := by
    apply List.find?_eq_none.mpr
    intro x hx
    rcases List.mem_map.mp hx with ⟨p, hp, rfl⟩
    simpa using h p hp
  rw [h1]
  simp [List.find?]

/-- Helper: a pre-grouped string company never throws. -/
theorem preGroupedCompany_strGrouped_ok (n : Nat)
    (flds : List (String × String)) (emps : List (List (String × String)))
    (h : ∀ p ∈ flds, p.1 ≠ "employees") :
    ∃ cn, preGroupedCompany n (strGroupedObj flds emps) = .ok cn := by
  have hrnAll := preGroupedEmps_strObj_ok emps
  have harr : jsTruthy (JVal.arr (emps.map strObj)) = true := rfl
  have hasr : asArr (JVal.arr (emps.map strObj)) = .ok (emps.map strObj) := rfl
  simp only [preGroupedCompany, strGroupedObj, getProp_obj, Bind.bind,
    Except.bind, lookupJ_strGrouped_employees flds emps h, harr, hasr,
    if_true, pure, Except.pure]
  cases hcid : jsTruthy (lookupJ (flds.map (fun p => (p.1, JVal.str p.2)) ++
      [("employees", JVal.arr (emps.map strObj))]) "id") <;>
    simp only [hcid, if_true, if_false, Bool.false_eq_true]
  · obtain ⟨rn, hrn⟩ := hrnAll (n + 1)
    rw [hrn]
    exact ⟨_, rfl⟩
  · obtain ⟨rn, hrn⟩ := hrnAll n
    rw [hrn]
    exact ⟨_, rfl⟩

/-- Helper: the pre-grouped branch on string companies never throws. -/
theorem preGroupedCompanies_strGrouped_ok
    (comps : List (List (String × String) × List (List (String × String)))) :
    ∀ n, (∀ c ∈ comps, ∀ p ∈ c.1, p.1 ≠ "employees") →
    ∃ cn, preGroupedCompanies n
      (comps.map (fun c => strGroupedObj c.1 c.2)) = .ok cn := by
  induction comps with
  | nil => intro n _; exact ⟨_, rfl⟩
  | cons c rest ih =>
    intro n h
    obtain ⟨cn, hcn⟩ := preGroupedCompany_strGrouped_ok n c.1 c.2
      (h c (by simp))
    obtain ⟨rn, hrn⟩ := ih cn.2 (fun c' hc' => h c' (by simp [hc']))
    exact ⟨(cn.1 :: rn.1, rn.2), by
      simp only [List.map_cons, preGroupedCompanies, hcn, Bind.bind,
        Except.bind, hrn, pure, Except.pure]⟩

/-- C7 counterexample: a decoded top-level array containing `null` makes
`parse` raise a `TypeError` (`data[0].employees` on `null`), so the
claim that no exception escapes for any decoded-array input fails. -/
theorem parseJSON_null_counterexample :
    parseJSONData (.arr [JVal.null]) = .error .typeError := rfl

/-- C7 amended: `parse` returns `[]` when the JSON decode fails (caught
internally) and when the decoded top level is not an array; no exception
escapes for decoded arrays of flat string rows (the parser computes the
pure grouping fold), nor for pre-grouped arrays of string companies none
of whose scalar fields is named `employees`; a `null` array element,
however, raises a `TypeError` (see the counterexample).  `parseCSV`,
`findMatchingEmployee` and `mergeEmployeeData` are total functions of
the embedding and cannot throw. -/
theorem parseJSON_amended :
    parseJSON none = .ok [] ∧
    (∀ d : JVal, (∀ items, d ≠ JVal.arr items) → parseJSONData d = .ok []) ∧
    (∀ rows : List (List (String × String)),
      parseJSONData (.arr (rows.map strObj)) =
        .ok (((rows.foldl flatStepPure ([], 0)).1).map (·.2))) ∧
    (∀ comps : List (List (String × String) × List (List (String × String))),
      (∀ c ∈ comps, ∀ p ∈ c.1, p.1 ≠ "employees") →
      ∃ cs, parseJSONData
        (.arr (comps.map (fun c => strGroupedObj c.1 c.2))) = .ok cs) := by
  refine ⟨rfl, ?_, ?_, ?_⟩
  · intro d h
    cases d with
    | arr items => exact absurd rfl (h items)
    | _ => rfl
  · intro rows
    cases rows with
    | nil => rfl
    | cons r rest =>
      simp only [List.map_cons, parseJSONData, getProp_strObj, Bind.bind,
        Except.bind, isArr_of_strOrU (strOrU_strLookup r "employees"),
        Bool.false_eq_true, if_false]
      rw [show (strObj r :: rest.map strObj) = (r :: rest).map strObj from rfl,
        flatSteps_strObj]
      rfl
  · intro comps h
    cases comps with
    | nil => exact ⟨[], rfl⟩
    | cons c rest =>
      simp only [List.map_cons, parseJSONData, strGroupedObj, getProp_obj,
        Bind.bind, Except.bind,
        lookupJ_strGrouped_employees c.1 c.2 (h c (by simp)), isArr, if_true]
      have hall := preGroupedCompanies_strGrouped_ok (c :: rest) 0 h
      simp only [List.map_cons, strGroupedObj] at hall
      obtain ⟨cn, hcn⟩ := hall
      rw [hcn]
      exact ⟨_, rfl⟩

/-- Witness for C7 amended at concrete inputs: a non-array value, a flat
string-row array, and a pre-grouped string-company array. -/
theorem parseJSON_amended_witness :
    parseJSONData (.num 3) = .ok [] ∧
    parseJSONData (.arr ([[("Company domain", "acme.com"),
      ("First name", "Jane")]].map strObj)) =
      .ok ((([[("Company domain", "acme.com"), ("First name", "Jane")]].foldl
        flatStepPure ([], 0)).1).map (·.2)) ∧
    (∃ cs, parseJSONData (.arr ([([("name", "Acme")],
      [[("First name", "A")]])].map (fun c => strGroupedObj c.1 c.2))) =
      .ok cs) := by
  refine ⟨?_, ?_, ?_⟩
  · exact parseJSON_amended.2.1 (.num 3) (fun items h => by cases h)
  · exact parseJSON_amended.2.2.1 [[("Company domain", "acme.com"),
      ("First name", "Jane")]]
  · exact parseJSON_amended.2.2.2 [([("name", "Acme")], [[("First name", "A")]])]
      (by intro c hc p hp; fin_cases hc; fin_cases hp; decide)

/-- C5: the parsers' grouping key is `(domain or name)` lowercased with
a leading protocol stripped, a leading `www.` stripped, one trailing
slash stripped, then trimmed; consequently the domains
`https://Acme.com/`, `www.acme.com` and `acme.com` share one key, and
rows carrying them collapse into a single company group in one CSV
parse and in one flat JSON parse. -/
theorem groupingKey_normalization :
    (∀ d n : String, companyKeyOf (jsOr d n) = groupingKeySpec d n) ∧
    companyKeyOf "https://Acme.com/" = "acme.com" ∧
    companyKeyOf "www.acme.com" = "acme.com" ∧
    companyKeyOf "acme.com" = "acme.com" ∧
    (parseCSV csvExampleC5).map (fun c => c.employees.length) = [3] ∧
    (csvEntries csvExampleC5).map (·.1) = ["acme.com"] ∧
    (parseJSONData (.arr jsonExampleC5)).toOption.map
      (fun cs => cs.map (fun c => c.employees.length)) = some [3] := by
  refine ⟨fun d n => rfl, by decide, by decide, by decide, by decide, by decide, rfl⟩

/-- C6: in a CSV parse and in a flat JSON parse, each data row appends
one employee to its grouping key's company exactly when the row's mapped
first or last name is non-empty; nameless rows emit nothing, and every
qualifying row appends a fresh employee even when it duplicates an
earlier one — per key, the (id-blanked) employee list is exactly the
qualifying rows with that key, in row order. -/
theorem parse_employee_rows :
    (∀ (text : String) (k : String),
      (lookupEmps (csvEntries text) k).map empCore =
        ((csvDataRows text).filter (fun r =>
          csvRowKey (csvHeaders text) r == k &&
          csvRowQualifies (csvHeaders text) r)).map
          (csvRowEmpCore (csvHeaders text))) ∧
    (∀ (rows : List (List (String × String))) (k : String),
      flatSteps ([], 0) (rows.map strObj) =
        .ok (rows.foldl flatStepPure ([], 0)) ∧
      (lookupEmpsJ ((rows.foldl flatStepPure ([], 0)).1) k).map empCoreJ =
        (rows.filter (fun r => jsonRowKey r == k && jsonRowQualifies r)).map
          jsonRowEmpCore) := by
  constructor
  · intro text k
    rw [csvEntries, csvFold_lookup]
    simp [lookupEmps]
  · intro rows k
    refine ⟨flatSteps_strObj rows _, ?_⟩
    rw [flatFold_lookup]
    simp [lookupEmpsJ]

/-- Helper: the company loop writes exactly the keys up to the first
failing one and reports that key, whatever the accumulated state. -/
theorem importCompaniesLoop_spec (ok : String → Bool)
    (em : List (String × Company)) :
    ∀ (cs : List Company) (n : Nat) (written : List (String × List Employee)),
    ((importCompaniesLoop ok em cs n written).1).map (·.1) =
      written.map (·.1) ++ (cs.map (fun c => jsLower c.name)).takeWhile ok ∧
    (importCompaniesLoop ok em cs n written).2.2 =
      ((cs.map (fun c => jsLower c.name)).dropWhile ok).head? := by
  intro cs
  induction cs with
  | nil => intro n written; simp [importCompaniesLoop]
  | cons company rest ih =>
    intro n written
    simp only [importCompaniesLoop, List.map_cons, List.takeWhile_cons,
      List.dropWhile_cons]
    rcases hfind : em.reverse.find? (fun p => p.1 == jsLower company.name) with _ | pr <;>
      cases hok : ok (jsLower company.name) <;>
      simp only [hfind, hok, if_true, if_false, Bool.false_eq_true, List.head?_cons] <;>
      first
        | rfl
        | (rw [(ih _ _).1, (ih _ _).2]
           simp)
        | simp

/-- C1 counterexample: with two parsed companies whose writes are
decided by an oracle failing exactly on the first company's key, the
loop writes nothing, reports the first company, and never writes the
second company even though its write would succeed — contradicting the
claim that subsequent companies continue to be processed. -/
theorem importToFirebase_abort_counterexample :
    (importToFirebase (fun k => k != "a") [compA, compB] [compA, compB]).1 = [] ∧
    (importToFirebase (fun k => k != "a") [compA, compB] [compA, compB]).2.2 =
      some "a" ∧
    (fun k : String => k != "a") "b" = true := by
  refine ⟨by decide, by decide, by decide⟩

/-- C1 amended: the single `try` around the company loop makes a write
failure abort the batch: exactly the companies before the first failing
write are written (in input order), the error is reported once with the
first failing company's key, and no company after the failure is
processed. -/
theorem importToFirebase_abort (ok : String → Bool)
    (existing parsed : List Company) :
    ((importToFirebase ok existing parsed).1).map (·.1) =
      (parsed.map (fun c => jsLower c.name)).takeWhile ok ∧
    (importToFirebase ok existing parsed).2.2 =
      ((parsed.map (fun c => jsLower c.name)).dropWhile ok).head? := by
  have h := importCompaniesLoop_spec ok
    (existing.map (fun c => (jsLower c.name, c))) parsed 0 []
  simpa [importToFirebase] using h

/-- C9: in the import-merge loop, a matched new employee produces a
merged record written back at the matched index carrying the persisted
record's id whenever that id is non-empty; an unmatched new employee is
appended, keeping its own id when present and receiving a fresh one
otherwise. -/
theorem importEmpStep_id (acc : List Employee) (n : Nat) (e : Employee) :
    (∀ m, findMatchingEmployee acc e = some m → m.id ≠ "" →
      (importEmpStep (acc, n) e).1 =
        acc.set (acc.findIdx (fun x => empMatches e x))
          { mergeEmployeeData m e with id := m.id }) ∧
    (findMatchingEmployee acc e = none →
      (importEmpStep (acc, n) e).1 =
        acc ++ [if e.id ≠ "" then e else { e with id := freshId n }]) := by
  constructor
  · intro m hm hid
    have hb : (m.id != "") = true := bne_iff_ne.mpr hid
    simp only [importEmpStep, hm, hb, if_true]
  · intro hnone
    simp only [importEmpStep, hnone]
    by_cases he : e.id = ""
    · simp [he]
    · simp [bne_iff_ne.mpr he, he]

/-- Witness for C9 at a concrete input: a new record matching a
persisted one by email is merged and keeps the persisted id `p1`;
against an empty accumulated list it is appended with its own id. -/
theorem importEmpStep_id_witness :
    findMatchingEmployee [empP] empN = some empP ∧ empP.id ≠ "" ∧
    (importEmpStep ([empP], 0) empN).1 =
      [{ mergeEmployeeData empP empN with id := "p1" }] ∧
    findMatchingEmployee [] empN = none ∧
    (importEmpStep (([] : List Employee), 0) empN).1 = [empN] := by
  refine ⟨by decide, by decide, ?_, by decide, ?_⟩
  · have h := (importEmpStep_id [empP] 0 empN).1 empP (by decide) (by decide)
    exact h.trans (by decide)
  · have h := (importEmpStep_id [] 0 empN).2 (by decide)
    exact h.trans (by decide)

end RNC
